import Mathlib

/-!
Verification development for the `recover` compile-unit recovery tool.

This file gives a shallow embedding, in Lean, of the parts of the Python
source that the verified properties are about:

* `src/recover/state.py` — the bit-vector `State` over a function list,
  with `to_cu_list`, `from_cu_list` and `siblings`;
* `src/recover/cu_map.py` — the `CUMap` partition of a function list into
  compile-units, with its accessors, mutators, `get_invalid_cus`,
  `renumber` and the JSON persistence layer;
* `src/recover/optimizer.py` — `Optimizer._update_cu_map` and the
  convergence loop of `Optimizer.optimize`;
* `src/recover/optimizers/brute_force.py` — `BruteForceFast._optimize`;
* `src/recover/estimators/articulation_points.py` — the articulation-point
  estimation algorithm `_Base._estimate`;
* `src/recover/fitness_function.py` — the construction of
  `DataFitnessFunction` (keyword-argument semantics of its call into
  `recover.util.get_func_data_refs`).

Machine integers are embedded as `Nat`/`Int` (Python integers are unbounded,
so no wrap-around modelling is needed).  Functions that can raise are
embedded with `Option`/`Except` results.
-/

namespace Recover

/-! ## States (`src/recover/state.py`)

A `State` packages the bit-vector (a Python `int`, here a `Nat`) together
with the list of function addresses it segments.  Bit `n - 1` (for `n`
functions) marks the first compile-unit; every set bit marks the first
function of a compile-unit.  In `State.to_cu_list` the source walks an
index pair `(i, j)` with the invariant `i + j = n - 1`: `i` indexes the
function list from the front and `j` is the bit position, scanned from the
most significant end.  Hence the function at the head of a *suffix* `l` of
the function list is governed by bit `l.length - 1`, and the element after
the head by bit `(l.tail).length - 1`, which is what the recursions below
use. -/

structure State where
  bits : Nat
  funcs : List Nat
deriving DecidableEq, Repr

/-- Inner `while` loop of `State.to_cu_list`: starting inside a
compile-unit, grab the following functions as long as the bit governing
them (the `self & (1 << (j - 1))` test in the source) is clear. -/
def takeClear (b : Nat) : List Nat → List Nat
  | [] => []
  | f :: rest => if b.testBit rest.length then [] else f :: takeClear b rest

/-- Outer `while` loop of `State.to_cu_list`.  When the bit of the head
function is set, a compile-unit starts there and extends over the
following clear-bit functions (`takeClear`); when it is clear the function
is skipped (in the source this is the `i += 1; j -= 1` step with no
append).  Recursing on `rest` after a set bit revisits the grabbed
clear-bit functions, which are skipped again — the output is the same as
the source's jump over them. -/
def toCuAux (b : Nat) : List Nat → List (List Nat)
  | [] => []
  | f :: rest =>
    if b.testBit rest.length then (f :: takeClear b rest) :: toCuAux b rest
    else toCuAux b rest

/-- `State.to_cu_list` from `state.py`. -/
def State.to_cu_list (s : State) : List (List Nat) :=
  toCuAux s.bits s.funcs

/-- Bit-vector built by `State.from_cu_list`: iterating over the
compile-units in reverse, the source sets bit `i + len(cu) - 1` where `i`
is the total length of the compile-units already processed — i.e. of those
*after* `cu` in the original order.  Structurally, the compile-unit at the
head of the list contributes bit `cu.length + (rest.flatten).length - 1`. -/
def fromCuBits : List (List Nat) → Nat
  | [] => 0
  | cu :: rest => fromCuBits rest ||| 2 ^ (cu.length + rest.flatten.length - 1)

/-- `State.from_cu_list` from `state.py`: the bit-vector together with the
concatenation (`itertools.chain`) of the compile-units. -/
def State.from_cu_list (cus : List (List Nat)) : State :=
  ⟨fromCuBits cus, cus.flatten⟩

/-- `State.siblings` from `state.py`: all states of the same width with
`num_cus` bits set, the most significant bit fixed.  `itertools.combinations
(range(size - 1), num_cus - 1)` enumerates the `(num_cus - 1)`-element
subsets of `{0, …, size - 2}` (as increasing tuples); these are exactly the
length-`(num_cus - 1)` sublists of `List.range (size - 1)`. -/
def State.siblings (s : State) (num_cus : Nat) : List State :=
  ((List.range (s.funcs.length - 1)).sublistsLen (num_cus - 1)).map
    (fun bs => ⟨2 ^ (s.funcs.length - 1) + (bs.map (fun i => 2 ^ i)).sum, s.funcs⟩)

/-- Suffix left over once `toCuAux` has skipped the leading clear-bit
functions (proof helper; `takeClear b l ++ dropClear b l = l`). -/
def dropClear (b : Nat) : List Nat → List Nat
  | [] => []
  | f :: rest => if b.testBit rest.length then f :: rest else dropClear b rest

theorem takeClear_append_dropClear (b : Nat) (l : List Nat) :
    takeClear b l ++ dropClear b l = l := by
  induction l with
  | nil => rfl
  | cons f rest ih =>
    by_cases h : b.testBit rest.length <;> simp [takeClear, dropClear, h, ih]

theorem flatten_toCuAux (b : Nat) (l : List Nat) :
    (toCuAux b l).flatten = dropClear b l := by
  induction l with
  | nil => rfl
  | cons f rest ih =>
    by_cases h : b.testBit rest.length <;>
      simp [toCuAux, dropClear, h, ih, takeClear_append_dropClear]

theorem mod_two_pow_succ_of_testBit_false {b k : Nat} (h : b.testBit k = false) :
    b % 2 ^ (k + 1) = b % 2 ^ k := by
  refine Nat.eq_of_testBit_eq fun j => ?_
  rcases lt_trichotomy j k with hj | rfl | hj
  · simp [Nat.testBit_mod_two_pow, hj, Nat.lt_succ_of_lt hj]
  · simp [Nat.testBit_mod_two_pow, h]
  · have h1 : ¬ j < k + 1 := by omega
    have h2 : ¬ j < k := by omega
    simp [Nat.testBit_mod_two_pow, h1, h2]

theorem mod_two_pow_succ_of_testBit_true {b k : Nat} (h : b.testBit k = true) :
    b % 2 ^ (k + 1) = b % 2 ^ k ||| 2 ^ k := by
  refine Nat.eq_of_testBit_eq fun j => ?_
  rcases lt_trichotomy j k with hj | rfl | hj
  · simp [Nat.testBit_mod_two_pow, Nat.testBit_lor, hj, Nat.lt_succ_of_lt hj,
      Nat.testBit_two_pow_of_ne (Nat.ne_of_gt hj)]
  · simp [Nat.testBit_mod_two_pow, Nat.testBit_lor, h]
  · have h1 : ¬ j < k + 1 := by omega
    have h2 : ¬ j < k := by omega
    simp [Nat.testBit_mod_two_pow, Nat.testBit_lor, h1, h2,
      Nat.testBit_two_pow_of_ne (Nat.ne_of_lt hj)]

/-- Core round-trip identity: rebuilding the bit-vector from the
compile-unit list recovers the low `l.length` bits of the original. -/
theorem fromCuBits_toCuAux (b : Nat) (l : List Nat) :
    fromCuBits (toCuAux b l) = b % 2 ^ l.length := by
  induction l with
  | nil => simp [toCuAux, fromCuBits, Nat.mod_one]
  | cons f rest ih =>
    by_cases h : b.testBit rest.length
    · have hlen : (f :: takeClear b rest).length + (toCuAux b rest).flatten.length - 1
          = rest.length := by
        have hsplit := congrArg List.length (takeClear_append_dropClear b rest)
        simp only [List.length_append] at hsplit
        rw [flatten_toCuAux]
        simp only [List.length_cons]
        omega
      rw [show toCuAux b (f :: rest) = (f :: takeClear b rest) :: toCuAux b rest from by
        simp [toCuAux, h]]
      rw [fromCuBits, hlen, ih, List.length_cons]
      exact (mod_two_pow_succ_of_testBit_true h).symm
    · rw [show toCuAux b (f :: rest) = toCuAux b rest from by simp [toCuAux, h]]
      rw [ih, List.length_cons]
      exact (mod_two_pow_succ_of_testBit_false (Bool.eq_false_iff.mpr h)).symm

theorem dropClear_of_head_set {b : Nat} {f : Nat} {rest : List Nat}
    (h : b.testBit rest.length = true) : dropClear b (f :: rest) = f :: rest := by
  simp [dropClear, h]

/-- First half of claim C1: `from_cu_list ∘ to_cu_list` is the identity on
valid states. -/
theorem from_cu_list_to_cu_list (s : State) (hne : s.funcs ≠ [])
    (hlt : s.bits < 2 ^ s.funcs.length)
    (hmsb : s.bits.testBit (s.funcs.length - 1) = true) :
    State.from_cu_list s.to_cu_list = s := by
  obtain ⟨b, l⟩ := s
  obtain ⟨f, rest, rfl⟩ := List.exists_cons_of_ne_nil hne
  simp only [State.from_cu_list, State.to_cu_list] at *
  refine congrArg₂ State.mk ?_ ?_
  · rw [fromCuBits_toCuAux]
    exact Nat.mod_eq_of_lt hlt
  · rw [flatten_toCuAux]
    exact dropClear_of_head_set (by simpa using hmsb)

theorem fromCuBits_testBit_ge {cus : List (List Nat)} (h : ∀ cu ∈ cus, cu ≠ [])
    {j : Nat} (hj : cus.flatten.length ≤ j) : (fromCuBits cus).testBit j = false := by
  induction cus with
  | nil => simp [fromCuBits]
  | cons cu rest ih =>
    have hcu : cu ≠ [] := h cu (by simp)
    have hlen : 1 ≤ cu.length := List.length_pos.mpr hcu
    simp only [List.flatten_cons, List.length_append] at hj
    rw [fromCuBits, Nat.testBit_lor,
      ih (fun c hc => h c (by simp [hc])) (by omega),
      Nat.testBit_two_pow_of_ne (by omega)]
    rfl

theorem fromCuBits_testBit_msb {cus : List (List Nat)} (hne : cus ≠ [])
    (h : ∀ cu ∈ cus, cu ≠ []) :
    (fromCuBits cus).testBit (cus.flatten.length - 1) = true := by
  obtain ⟨cu, rest, rfl⟩ := List.exists_cons_of_ne_nil hne
  have hlen : 1 ≤ cu.length := List.length_pos.mpr (h cu (by simp))
  rw [fromCuBits, Nat.testBit_lor]
  have : cu.length + rest.flatten.length - 1 = (cu :: rest).flatten.length - 1 := by
    simp [List.length_append]
  rw [this.symm] at *
  simp [Nat.testBit_two_pow_self]

theorem takeClear_congr {b b' : Nat} (l : List Nat)
    (h : ∀ j, j < l.length → b.testBit j = b'.testBit j) :
    takeClear b l = takeClear b' l := by
  induction l with
  | nil => rfl
  | cons f rest ih =>
    rw [takeClear, takeClear, h rest.length (by simp),
      ih (fun j hj => h j (by simp; omega))]

theorem toCuAux_congr {b b' : Nat} (l : List Nat)
    (h : ∀ j, j < l.length → b.testBit j = b'.testBit j) :
    toCuAux b l = toCuAux b' l := by
  induction l with
  | nil => rfl
  | cons f rest ih =>
    have hrest : ∀ j, j < rest.length → b.testBit j = b'.testBit j :=
      fun j hj => h j (by simp; omega)
    rw [toCuAux, toCuAux, h rest.length (by simp), ih hrest,
      takeClear_congr rest hrest]

theorem takeClear_append_of_clear {b : Nat} {xs ys : List Nat}
    (h : ∀ j, ys.length ≤ j → j < xs.length + ys.length → b.testBit j = false) :
    takeClear b (xs ++ ys) = xs ++ takeClear b ys := by
  induction xs with
  | nil => simp
  | cons x xs ih =>
    have hx : b.testBit (xs ++ ys).length = false := by
      refine h (xs ++ ys).length (by simp) ?_
      simp only [List.length_append, List.length_cons]
      omega
    rw [List.cons_append, takeClear, hx]
    simp only [Bool.false_eq_true, if_false, List.cons_append, List.cons_inj_right]
    exact ih (fun j hj1 hj2 => h j hj1 (by simp only [List.length_cons]; omega))

theorem toCuAux_append_of_clear {b : Nat} {xs ys : List Nat}
    (h : ∀ j, ys.length ≤ j → j < xs.length + ys.length → b.testBit j = false) :
    toCuAux b (xs ++ ys) = toCuAux b ys := by
  induction xs with
  | nil => simp
  | cons x xs ih =>
    have hx : b.testBit (xs ++ ys).length = false := by
      refine h (xs ++ ys).length (by simp) ?_
      simp only [List.length_append, List.length_cons]
      omega
    rw [List.cons_append, toCuAux, hx]
    simp only [Bool.false_eq_true, if_false]
    exact ih (fun j hj1 hj2 => h j hj1 (by simp only [List.length_cons]; omega))

theorem takeClear_eq_nil {b : Nat} {l : List Nat}
    (h : l ≠ [] → b.testBit (l.length - 1) = true) : takeClear b l = [] := by
  cases l with
  | nil => rfl
  | cons g t =>
    have ht : b.testBit t.length = true := by
      simpa using h (List.cons_ne_nil g t)
    rw [takeClear, ht]
    simp

/-- Second half of claim C1: converting a partition to a state and back
recovers the partition. -/
theorem to_cu_list_from_cu_list (cus : List (List Nat)) (h : ∀ cu ∈ cus, cu ≠ []) :
    (State.from_cu_list cus).to_cu_list = cus := by
  induction cus with
  | nil => rfl
  | cons cu rest ih =>
    obtain ⟨f, tl, rfl⟩ := List.exists_cons_of_ne_nil (h cu (by simp))
    have hrest : ∀ c ∈ rest, c ≠ [] := fun c hc => h c (by simp [hc])
    have hclear : ∀ j, rest.flatten.length ≤ j → j < tl.length + rest.flatten.length →
        (fromCuBits rest ||| 2 ^ (tl.length + rest.flatten.length)).testBit j = false := by
      intro j hj1 hj2
      rw [Nat.testBit_lor, fromCuBits_testBit_ge hrest hj1,
        Nat.testBit_two_pow_of_ne (by omega)]
      rfl
    have hflat : ((f :: tl) :: rest).flatten = f :: (tl ++ rest.flatten) := by simp
    have hbitseq : (f :: tl).length + rest.flatten.length - 1
        = tl.length + rest.flatten.length := by simp
    have hhead : (fromCuBits rest ||| 2 ^ (tl.length + rest.flatten.length)).testBit
        (tl ++ rest.flatten).length = true := by
      rw [List.length_append, Nat.testBit_lor, Nat.testBit_two_pow_self, Bool.or_true]
    show toCuAux (fromCuBits ((f :: tl) :: rest)) (((f :: tl) :: rest).flatten)
        = (f :: tl) :: rest
    rw [hflat, fromCuBits, hbitseq, toCuAux, hhead]
    simp only [if_true]
    have htakeFR : takeClear (fromCuBits rest ||| 2 ^ (tl.length + rest.flatten.length))
        rest.flatten = [] := by
      refine takeClear_eq_nil (fun hne => ?_)
      have hrestne : rest ≠ [] := by
        intro hcon
        exact hne (by simp [hcon])
      rw [Nat.testBit_lor, fromCuBits_testBit_msb hrestne hrest, Bool.true_or]
    have htake : takeClear (fromCuBits rest ||| 2 ^ (tl.length + rest.flatten.length))
        (tl ++ rest.flatten)
        = tl ++ takeClear (fromCuBits rest ||| 2 ^ (tl.length + rest.flatten.length))
            rest.flatten :=
      takeClear_append_of_clear hclear
    have hrec : toCuAux (fromCuBits rest ||| 2 ^ (tl.length + rest.flatten.length))
        (tl ++ rest.flatten)
        = toCuAux (fromCuBits rest ||| 2 ^ (tl.length + rest.flatten.length))
            rest.flatten :=
      toCuAux_append_of_clear hclear
    have hcong : toCuAux (fromCuBits rest ||| 2 ^ (tl.length + rest.flatten.length))
        rest.flatten = toCuAux (fromCuBits rest) rest.flatten := by
      refine toCuAux_congr rest.flatten (fun j hj => ?_)
      rw [Nat.testBit_lor, Nat.testBit_two_pow_of_ne (by omega), Bool.or_false]
    have hIH : toCuAux (fromCuBits rest) rest.flatten = rest := ih hrest
    rw [htake, htakeFR, hrec, hcong, hIH, List.append_nil]

/-- C1: for every valid `State` (non-empty function list, bit-vector of
the list's width with its most significant bit set), `from_cu_list`
applied to `to_cu_list` recovers the state, function list included; and
for every partition of a function list into non-empty contiguous
sublists, `to_cu_list` applied to `from_cu_list` recovers the partition. -/
theorem claim_C1 :
    (∀ s : State, s.funcs ≠ [] → s.bits < 2 ^ s.funcs.length →
      s.bits.testBit (s.funcs.length - 1) = true →
      State.from_cu_list s.to_cu_list = s ∧
      (State.from_cu_list s.to_cu_list).funcs = s.funcs) ∧
    (∀ cus : List (List Nat), (∀ cu ∈ cus, cu ≠ []) →
      (State.from_cu_list cus).to_cu_list = cus) :=
  ⟨fun s h1 h2 h3 =>
    ⟨from_cu_list_to_cu_list s h1 h2 h3,
     by rw [from_cu_list_to_cu_list s h1 h2 h3]⟩,
   to_cu_list_from_cu_list⟩

/-- Witness for C1 at the state `0b101` over `[10, 20, 30]` and the
partition `[[1], [2, 3]]`. -/
theorem claim_C1_witness :
    State.from_cu_list (State.to_cu_list ⟨5, [10, 20, 30]⟩) = ⟨5, [10, 20, 30]⟩ ∧
    (State.from_cu_list [[1], [2, 3]]).to_cu_list = [[1], [2, 3]] :=
  ⟨(claim_C1.1 ⟨5, [10, 20, 30]⟩ (by decide) (by decide) (by decide)).1,
   claim_C1.2 [[1], [2, 3]] (by decide)⟩

/-! ## Bit counting

`int.bit_count()` (used by `Optimizer._update_cu_map` as `state.bit_count()`)
is the population count of a Python integer, embedded here by its documented
semantics on naturals: the low bit plus the count of the remaining bits. -/

def bitCountAux : Nat → Nat → Nat
  | 0, _ => 0
  | fuel + 1, n => if n = 0 then 0 else n % 2 + bitCountAux fuel (n / 2)

def bit_count (n : Nat) : Nat :=
  bitCountAux n n

theorem bitCountAux_congr {n : Nat} : ∀ {fuel : Nat}, n ≤ fuel →
    bitCountAux fuel n = bit_count n := by
  rw [bit_count]
  induction n using Nat.strong_induction_on with
  | _ n ih =>
    intro fuel hfuel
    match fuel, n with
    | 0, 0 => rfl
    | f + 1, 0 => rfl
    | 0, k + 1 => omega
    | f + 1, k + 1 =>
      have hdivf : (k + 1) / 2 ≤ f := by omega
      have hdivk : (k + 1) / 2 ≤ k := by omega
      have hlt : (k + 1) / 2 < k + 1 := by omega
      show (if k + 1 = 0 then 0 else (k + 1) % 2 + bitCountAux f ((k + 1) / 2))
          = (if k + 1 = 0 then 0 else (k + 1) % 2 + bitCountAux k ((k + 1) / 2))
      rw [ih _ hlt hdivf, ih _ hlt hdivk]

theorem bit_count_zero : bit_count 0 = 0 := rfl

theorem bit_count_of_ne_zero {n : Nat} (h : n ≠ 0) :
    bit_count n = n % 2 + bit_count (n / 2) := by
  match n, h with
  | k + 1, _ =>
    show (if k + 1 = 0 then 0 else (k + 1) % 2 + bitCountAux k ((k + 1) / 2))
        = (k + 1) % 2 + bit_count ((k + 1) / 2)
    rw [if_neg (by omega), bitCountAux_congr (by omega)]

/-- A bit of `n` is set exactly when its index is one of `n.bitIndices`. -/
theorem testBit_eq_decide_mem_bitIndices (j n : Nat) :
    n.testBit j = decide (j ∈ n.bitIndices) := by
  induction j generalizing n with
  | zero =>
    obtain ⟨m, hm | hm⟩ := Nat.even_or_odd' n
    · subst hm
      simp [Nat.testBit_zero, Nat.mul_mod_right, Nat.bitIndices_two_mul]
    · subst hm
      have hmod : (2 * m + 1) % 2 = 1 := by omega
      simp [Nat.testBit_zero, Nat.bitIndices_two_mul_add_one, hmod]
  | succ j ih =>
    obtain ⟨m, hm | hm⟩ := Nat.even_or_odd' n
    · subst hm
      rw [Nat.testBit_succ, Nat.mul_div_cancel_left m (by norm_num),
        Nat.bitIndices_two_mul, ih m]
      simp
    · subst hm
      have hdiv : (2 * m + 1) / 2 = m := by omega
      rw [Nat.testBit_succ, hdiv, Nat.bitIndices_two_mul_add_one, ih m]
      simp

/-- The population count of `n` is the number of its set-bit indices. -/
theorem bit_count_eq_length_bitIndices (n : Nat) :
    bit_count n = n.bitIndices.length := by
  induction n using Nat.strong_induction_on with
  | _ n ih =>
    rcases Nat.eq_zero_or_pos n with rfl | hpos
    · simp [bit_count_zero]
    obtain ⟨m, hm | hm⟩ := Nat.even_or_odd' n
    · have hmpos : 0 < m := by omega
      have hmlt : m < n := by omega
      subst hm
      rw [bit_count_of_ne_zero (by omega), Nat.mul_div_cancel_left m (by norm_num),
        Nat.mul_mod_right, ih m hmlt, Nat.bitIndices_two_mul]
      simp
    · have hmlt : m < n := by omega
      subst hm
      have hdiv : (2 * m + 1) / 2 = m := by omega
      have hmod : (2 * m + 1) % 2 = 1 := by omega
      rw [bit_count_of_ne_zero (by omega), hdiv, hmod, ih m hmlt,
        Nat.bitIndices_two_mul_add_one]
      simp [Nat.add_comm]

theorem sum_range_two_pow (n : Nat) : ∑ i ∈ Finset.range n, 2 ^ i = 2 ^ n - 1 := by
  induction n with
  | zero => simp
  | succ n ih =>
    rw [Finset.sum_range_succ, ih, pow_succ]
    have : 1 ≤ 2 ^ n := Nat.one_le_two_pow
    omega

/-- A number all of whose set bits lie below `n` is less than `2 ^ n`. -/
theorem lt_two_pow_of_bitIndices_sorted {L : List Nat} (hL : L.Sorted (· < ·))
    (hlt : ∀ i ∈ L, i < n) : (L.map (fun i => 2 ^ i)).sum < 2 ^ n := by
  have hnd : L.Nodup := hL.nodup
  have hsum : L.toFinset.sum (fun i => 2 ^ i) = (L.map (fun i => 2 ^ i)).sum :=
    List.sum_toFinset _ hnd
  have hsub : L.toFinset ⊆ Finset.range n := by
    intro i hi
    simp only [List.mem_toFinset] at hi
    exact Finset.mem_range.mpr (hlt i hi)
  have hle : L.toFinset.sum (fun i => 2 ^ i) ≤ ∑ i ∈ Finset.range n, 2 ^ i :=
    Finset.sum_le_sum_of_subset hsub
  rw [hsum, sum_range_two_pow] at *
  have h1 : 1 ≤ 2 ^ n := Nat.one_le_two_pow
  omega

/-- C7: `siblings(k)` on a state over `n ≥ k ≥ 1` functions yields exactly
`C(n-1, k-1)` states, each of width `n`, with bit `n-1` set and exactly `k`
set bits; for `n = 8`, `siblings(1)` yields only `0b10000000` and
`siblings(2)` yields the seven states with the MSB plus one lower bit set. -/
theorem claim_C7 :
    (∀ (s : State) (k : Nat), 1 ≤ k → k ≤ s.funcs.length →
      (s.siblings k).length = Nat.choose (s.funcs.length - 1) (k - 1) ∧
      ∀ t ∈ s.siblings k, t.funcs = s.funcs ∧ t.bits < 2 ^ s.funcs.length ∧
        t.bits.testBit (s.funcs.length - 1) = true ∧ bit_count t.bits = k) ∧
    (State.siblings ⟨144, [0, 1, 2, 3, 4, 5, 6, 7]⟩ 1).map State.bits = [128] ∧
    (((State.siblings ⟨144, [0, 1, 2, 3, 4, 5, 6, 7]⟩ 2).map State.bits : List Nat) :
        Multiset Nat)
      = ({129, 130, 132, 136, 144, 160, 192} : Multiset Nat) := by
  refine ⟨fun s k hk1 hkn => ⟨?_, fun t ht => ?_⟩, by decide, by decide⟩
  · simp [State.siblings]
  · simp only [State.siblings, List.mem_map] at ht
    obtain ⟨bs, hbs, rfl⟩ := ht
    rw [List.mem_sublistsLen] at hbs
    obtain ⟨hsub, hlen⟩ := hbs
    have hsorted : bs.Sorted (· < ·) :=
      List.Pairwise.sublist hsub (List.sorted_lt_range _)
    have hmem : ∀ i ∈ bs, i < s.funcs.length - 1 :=
      fun i hi => List.mem_range.mp (hsub.subset hi)
    have hn1 : 1 ≤ s.funcs.length := le_trans hk1 hkn
    have hLsorted : (bs ++ [s.funcs.length - 1]).Sorted (· < ·) := by
      rw [List.Sorted, List.pairwise_append]
      exact ⟨hsorted, List.pairwise_singleton _ _,
        fun a ha b hb => by
          rw [List.mem_singleton] at hb
          subst hb
          exact hmem a ha⟩
    have hsum : 2 ^ (s.funcs.length - 1) + (bs.map (fun i => 2 ^ i)).sum
        = ((bs ++ [s.funcs.length - 1]).map (fun i => 2 ^ i)).sum := by
      rw [List.map_append, List.sum_append]
      simp [Nat.add_comm]
    have hbi : (2 ^ (s.funcs.length - 1) + (bs.map (fun i => 2 ^ i)).sum).bitIndices
        = bs ++ [s.funcs.length - 1] := by
      rw [hsum, Nat.bitIndices_twoPowsum hLsorted]
    refine ⟨rfl, ?_, ?_, ?_⟩
    · show 2 ^ (s.funcs.length - 1) + (bs.map (fun i => 2 ^ i)).sum < 2 ^ s.funcs.length
      rw [hsum]
      refine lt_two_pow_of_bitIndices_sorted hLsorted (fun i hi => ?_)
      rw [List.mem_append, List.mem_singleton] at hi
      rcases hi with hi | rfl
      · have := hmem i hi
        omega
      · omega
    · show (2 ^ (s.funcs.length - 1) + (bs.map (fun i => 2 ^ i)).sum).testBit
        (s.funcs.length - 1) = true
      rw [testBit_eq_decide_mem_bitIndices, hbi]
      simp
    · show bit_count (2 ^ (s.funcs.length - 1) + (bs.map (fun i => 2 ^ i)).sum) = k
      rw [bit_count_eq_length_bitIndices, hbi, List.length_append, hlen,
        List.length_singleton]
      omega

/-- Witness for C7 on a state over 4 functions with `k = 2` (and the two
concrete `n = 8` scenarios, re-checked through the theorem itself). -/
theorem claim_C7_witness :
    ((State.siblings ⟨8, [5, 6, 7, 9]⟩ 2).length = Nat.choose 3 1 ∧
      ∀ t ∈ State.siblings ⟨8, [5, 6, 7, 9]⟩ 2, t.funcs = [5, 6, 7, 9] ∧
        t.bits < 2 ^ 4 ∧ t.bits.testBit 3 = true ∧ bit_count t.bits = 2) ∧
    (State.siblings ⟨144, [0, 1, 2, 3, 4, 5, 6, 7]⟩ 1).map State.bits = [128] :=
  ⟨claim_C7.1 ⟨8, [5, 6, 7, 9]⟩ 2 (by decide) (by decide), claim_C7.2.1⟩

/-! ## Compile-unit maps (`src/recover/cu_map.py`)

A `CUMap` owns the ordered list of function addresses (`_funcs`) and the
parallel list `_func_to_cu` assigning a compile-unit identifier to each
index.  Identifiers are Python ints, initialised to `-1`, hence `Int`
here.  Out-of-range reads below use `List.getD _ 0`; every theorem only
reads positions that are in range. -/

structure CUMap where
  funcs : List Nat
  func_to_cu : List Int
deriving DecidableEq, Repr

/-- `CUInfo` from `cu_map.py`: identifier, half-open index bounds, and the
function addresses of one compile-unit. -/
structure CUInfo where
  cu_id : Int
  bounds : Nat × Nat
  funcs : List Nat
deriving DecidableEq, Repr

/-- Python's `bisect.bisect_left(a, x)`, embedded by its documented
semantics on a sorted list: the first position whose element is not less
than `x` — the length of the longest prefix of elements `< x`. -/
def bisect_left (a : List Nat) (x : Nat) : Nat :=
  (a.takeWhile (fun y => y < x)).length

/-- `CUMap.set_cu_by_func_idx` from `cu_map.py` (a plain list store;
`List.set` leaves the list unchanged when the index is out of range, which
cannot occur in the theorems below). -/
def set_cu_by_func_idx (m : CUMap) (i : Nat) (cu_id : Int) : CUMap :=
  ⟨m.funcs, m.func_to_cu.set i cu_id⟩

/-- `CUMap.set_cu_by_func_ea` from `cu_map.py`: binary-search the address,
and store only when it is actually present. -/
def set_cu_by_func_ea (m : CUMap) (ea : Nat) (cu_id : Int) : CUMap :=
  let i := bisect_left m.funcs ea
  if i ≠ m.funcs.length ∧ m.funcs.getD i 0 = ea then set_cu_by_func_idx m i cu_id
  else m

/-- Inner `while` loop shared by `CUMap.get_invalid_cus`,
`CUMap._get_cu_bounds` and `CUMap.get_next_cu`: from position `i`, advance
while the entry still equals `cu_id`. -/
def runEnd (l : List Int) (i : Nat) (cu_id : Int) : Nat :=
  i + ((l.drop i).takeWhile (fun x => x == cu_id)).length

theorem runEnd_gt {l : List Int} {i : Nat} (h : i < l.length) :
    i < runEnd l i (l.getD i 0) := by
  rw [runEnd, List.drop_eq_getElem_cons h, List.getD_eq_getElem l 0 h]
  rw [List.takeWhile_cons]
  simp

/-- `CUMap.get_invalid_cus` from `cu_map.py`: walk the runs of
`func_to_cu`; report any run whose identifier's first occurrence
(`list.index`) is not the run's own start.  The source collects the
reports in a `dict`; here they are kept as the list of insertions (the
claims below only use emptiness). -/
def scanInvalidAux (l : List Int) : Nat → Nat → List (Int × Nat)
  | 0, _ => []
  | fuel + 1, i =>
    if i < l.length then
      let cu_id := l.getD i 0
      let rest := scanInvalidAux l fuel (runEnd l i cu_id)
      if l.indexOf cu_id ≠ i then (cu_id, i) :: rest else rest
    else []

def scanInvalid (l : List Int) (i : Nat) : List (Int × Nat) :=
  scanInvalidAux l (l.length + 1 - i) i

theorem scanInvalidAux_congr (l : List Int) :
    ∀ (fuel₁ fuel₂ i : Nat), l.length - i < fuel₁ → l.length - i < fuel₂ →
      scanInvalidAux l fuel₁ i = scanInvalidAux l fuel₂ i := by
  intro fuel₁
  induction fuel₁ with
  | zero => omega
  | succ f ih =>
    intro fuel₂ i h1 h2
    match fuel₂ with
    | 0 => omega
    | g + 1 =>
      show (if i < l.length then _ else []) = (if i < l.length then _ else [])
      by_cases hi : i < l.length
      · have hrun := runEnd_gt hi
        rw [if_pos hi, if_pos hi]
        have hrec : scanInvalidAux l f (runEnd l i (l.getD i 0))
            = scanInvalidAux l g (runEnd l i (l.getD i 0)) := ih g _ (by omega) (by omega)
        simp only [hrec]
      · rw [if_neg hi, if_neg hi]

def get_invalid_cus (m : CUMap) : List (Int × Nat) :=
  scanInvalid m.func_to_cu 0

/-- Maximum of a non-empty Python list (`max(self._func_to_cu)`); the
`[]` case is unreachable in the source (it raises `ValueError`). -/
def listMax (l : List Int) : Int :=
  match l with
  | [] => 0
  | x :: xs => xs.foldl max x

/-- `CUMap.get_next_cu_id` from `cu_map.py`. -/
def get_next_cu_id (m : CUMap) : Int :=
  listMax m.func_to_cu + 1

/-- `CUMap._get_cu_index` from `cu_map.py`: `list.index(cu_id, start)`,
with the `ValueError` (`-1`) case as `none`. -/
def get_cu_index (l : List Int) (cu_id : Int) (start : Nat) : Option Nat :=
  ((l.drop start).findIdx? (fun x => x == cu_id)).map (· + start)

/-- `CUMap._get_cu_bounds` from `cu_map.py`. -/
def get_cu_bounds (l : List Int) (cu_id : Int) (start : Nat) : Option (Nat × Nat) :=
  (get_cu_index l cu_id start).map (fun i => (i, runEnd l i cu_id))

/-- `CUMap._get_cu_funcs` from `cu_map.py`. -/
def get_cu_funcs (m : CUMap) (bounds : Nat × Nat) : List Nat :=
  (List.range' bounds.1 (bounds.2 - bounds.1)).map (fun q => m.funcs.getD q 0)

/-- `CUMap._get_cu_info` from `cu_map.py` (a pair of bounds is always
truthy in Python, so `if bounds:` is just the `None` check). -/
def get_cu_info (m : CUMap) (cu_id : Int) (start : Nat) : Option CUInfo :=
  (get_cu_bounds m.func_to_cu cu_id start).map
    (fun b => ⟨cu_id, b, get_cu_funcs m b⟩)

/-- `CUMap.get_first_cu` from `cu_map.py`. -/
def get_first_cu (m : CUMap) : Option CUInfo :=
  if m.func_to_cu.length > 0 then get_cu_info m (m.func_to_cu.getD 0 0) 0 else none

/-- `CUMap.get_next_cu` from `cu_map.py`: locate the first run of the given
identifier, skip past it, and return the compile-unit that starts there. -/
def get_next_cu (m : CUMap) (cu_info : CUInfo) : Option CUInfo :=
  match get_cu_index m.func_to_cu cu_info.cu_id 0 with
  | none => none
  | some i =>
    let j := runEnd m.func_to_cu i cu_info.cu_id
    if j < m.func_to_cu.length then
      get_cu_info m (m.func_to_cu.getD j 0) j
    else none

/-- `CUMap.get_prev_cu` from `cu_map.py`. -/
def get_prev_cu (m : CUMap) (cu_info : CUInfo) : Option CUInfo :=
  match get_cu_index m.func_to_cu cu_info.cu_id 0 with
  | none => none
  | some i =>
    if 1 ≤ i then get_cu_info m (m.func_to_cu.getD (i - 1) 0) 0 else none

/-- `CUMap.get_cu_by_cu_id` from `cu_map.py`. -/
def get_cu_by_cu_id (m : CUMap) (cu_id : Int) : Option CUInfo :=
  get_cu_info m cu_id 0

/-- `CUMap.renumber` from `cu_map.py`.  The source rewrites each maximal
run in place while scanning it; every read happens at an index that has
not yet been written, so the loop is equivalent to this run-by-run
rewrite of the original list. -/
def renumberAux : Nat → List Int → Int → List Int
  | 0, _, _ => []
  | _, [], _ => []
  | fuel + 1, x :: rest, j =>
    (j :: (rest.takeWhile (fun y => y == x)).map (fun _ => j))
      ++ renumberAux fuel (rest.dropWhile (fun y => y == x)) (j + 1)

def renumberFrom (l : List Int) (j : Int) : List Int :=
  renumberAux l.length l j

def renumber (m : CUMap) : CUMap :=
  ⟨m.funcs, renumberFrom m.func_to_cu 0⟩

theorem bit_count_eq_filter_range {n b : Nat} (h : b < 2 ^ n) :
    bit_count b = ((List.range n).filter (fun j => b.testBit j)).length := by
  induction n generalizing b with
  | zero =>
    have hb : b = 0 := by
      simp only [pow_zero] at h
      omega
    subst hb
    simp [bit_count_zero]
  | succ n ih =>
    rcases eq_or_ne b 0 with rfl | hb
    · simp [bit_count_zero, Nat.zero_testBit]
    · have hdiv : b / 2 < 2 ^ n := by
        rw [Nat.div_lt_iff_lt_mul (by norm_num)]
        calc b < 2 ^ (n + 1) := h
        _ = 2 ^ n * 2 := by ring
      rw [bit_count_of_ne_zero hb, List.range_succ_eq_map, List.filter_cons,
        List.filter_map]
      have hcong : List.filter ((fun j => b.testBit j) ∘ Nat.succ) (List.range n)
          = List.filter (fun j => (b / 2).testBit j) (List.range n) :=
        List.filter_congr (fun a _ => by
          simp only [Function.comp_apply, Nat.testBit_succ])
      rw [hcong]
      rcases Nat.mod_two_eq_zero_or_one b with hmod | hmod
      · rw [if_neg (by simp [Nat.testBit_zero, hmod])]
        rw [List.length_map, ← ih hdiv, hmod, Nat.zero_add]
      · rw [if_pos (by simp [Nat.testBit_zero, hmod])]
        rw [List.length_cons, List.length_map, ← ih hdiv, hmod]
        omega

theorem length_toCuAux (b : Nat) (l : List Nat) :
    (toCuAux b l).length = ((List.range l.length).filter (fun j => b.testBit j)).length := by
  induction l with
  | nil => simp [toCuAux]
  | cons f rest ih =>
    rw [List.length_cons, List.range_succ, List.filter_append]
    by_cases h : b.testBit rest.length
    · rw [show toCuAux b (f :: rest) = (f :: takeClear b rest) :: toCuAux b rest from by
        simp [toCuAux, h]]
      rw [List.length_cons, ih, List.length_append]
      simp [h]
    · rw [show toCuAux b (f :: rest) = toCuAux b rest from by simp [toCuAux, h]]
      rw [ih, List.length_append]
      simp [h]

/-- The number of compile-units produced by `to_cu_list` is the population
count of the state, for a state that fits in its width. -/
theorem length_toCuAux_eq_bit_count {b : Nat} {l : List Nat} (h : b < 2 ^ l.length) :
    (toCuAux b l).length = bit_count b := by
  rw [length_toCuAux, bit_count_eq_filter_range h]

/-! ## `Optimizer._update_cu_map` (`src/recover/optimizer.py`)

The method receives the two adjacent compile-units being optimized and the
new state; it relabels every function covered by the state with
`set_cu_by_func_ea`, counting one change per function, and allocates a
fresh identifier in the three-unit case.  The two `assert` statements are
embedded as `none` results.  Only `cu.cu_id` and `next_cu.cu_id` are read
from the `CUInfo` arguments, so the embedding takes the identifiers. -/

def update_cu_map (m : CUMap) (cu_id next_cu_id : Int) (state : State) :
    Option (CUMap × Nat × Int) :=
  let num_bits_set := bit_count state.bits
  if 1 ≤ num_bits_set ∧ num_bits_set ≤ 3 then
    let cus := state.to_cu_list
    if cus.length = num_bits_set then
      if num_bits_set = 1 then
        let m1 := (cus.getD 0 []).foldl (fun mm ea => set_cu_by_func_ea mm ea cu_id) m
        some (m1, (cus.getD 0 []).length, -1)
      else if num_bits_set = 2 then
        let m1 := (cus.getD 0 []).foldl (fun mm ea => set_cu_by_func_ea mm ea cu_id) m
        let m2 := (cus.getD 1 []).foldl
          (fun mm ea => set_cu_by_func_ea mm ea next_cu_id) m1
        some (m2, (cus.getD 0 []).length + (cus.getD 1 []).length, -1)
      else
        let new_cu_id := get_next_cu_id m
        let m1 := (cus.getD 0 []).foldl (fun mm ea => set_cu_by_func_ea mm ea cu_id) m
        let m2 := (cus.getD 1 []).foldl
          (fun mm ea => set_cu_by_func_ea mm ea new_cu_id) m1
        let m3 := (cus.getD 2 []).foldl
          (fun mm ea => set_cu_by_func_ea mm ea next_cu_id) m2
        some (m3, (cus.getD 0 []).length + (cus.getD 1 []).length
          + (cus.getD 2 []).length, new_cu_id)
    else none
  else none

/-- C9: under the validity conditions of the caller (a state over the two
compile-units' concatenated function lists, most significant bit set, 1–3
set bits), `_update_cu_map` completes and reports
`len(cu) + len(next_cu)` changes — every function of both compile-units is
counted, whether or not its label actually changed. -/
theorem claim_C9 (m : CUMap) (cu next_cu : CUInfo) (state : State)
    (hfuncs : state.funcs = cu.funcs ++ next_cu.funcs)
    (hne : state.funcs ≠ [])
    (hlt : state.bits < 2 ^ state.funcs.length)
    (hmsb : state.bits.testBit (state.funcs.length - 1) = true)
    (hbc1 : 1 ≤ bit_count state.bits) (hbc3 : bit_count state.bits ≤ 3) :
    ∃ m' new_id, update_cu_map m cu.cu_id next_cu.cu_id state
      = some (m', cu.funcs.length + next_cu.funcs.length, new_id) := by
  have hlen : state.to_cu_list.length = bit_count state.bits :=
    length_toCuAux_eq_bit_count hlt
  have hflat : state.to_cu_list.flatten = state.funcs := by
    obtain ⟨f, rest, hfr⟩ := List.exists_cons_of_ne_nil hne
    rw [State.to_cu_list, flatten_toCuAux, hfr]
    refine dropClear_of_head_set ?_
    rw [hfr] at hmsb
    simpa using hmsb
  have htotal : state.funcs.length = cu.funcs.length + next_cu.funcs.length := by
    rw [hfuncs, List.length_append]
  have hcase : bit_count state.bits = 1 ∨ bit_count state.bits = 2
      ∨ bit_count state.bits = 3 := by omega
  rcases hcase with hk | hk | hk
  · obtain ⟨c0, hc0⟩ := List.length_eq_one.mp (hlen.trans hk)
    have hlens : c0.length = cu.funcs.length + next_cu.funcs.length := by
      rw [← htotal, ← hflat, hc0]
      simp
    have heq : update_cu_map m cu.cu_id next_cu.cu_id state
        = some (c0.foldl (fun mm ea => set_cu_by_func_ea mm ea cu.cu_id) m,
            cu.funcs.length + next_cu.funcs.length, -1) := by
      rw [update_cu_map]
      simp only [hk, hc0]
      norm_num [hlens]
    exact ⟨_, _, heq⟩
  · obtain ⟨c0, c1, hc01⟩ := List.length_eq_two.mp (hlen.trans hk)
    have hlens : c0.length + c1.length = cu.funcs.length + next_cu.funcs.length := by
      rw [← htotal, ← hflat, hc01]
      simp
    have heq : update_cu_map m cu.cu_id next_cu.cu_id state
        = some (c1.foldl (fun mm ea => set_cu_by_func_ea mm ea next_cu.cu_id)
              (c0.foldl (fun mm ea => set_cu_by_func_ea mm ea cu.cu_id) m),
            cu.funcs.length + next_cu.funcs.length, -1) := by
      rw [update_cu_map]
      simp only [hk, hc01]
      norm_num [hlens]
    exact ⟨_, _, heq⟩
  · obtain ⟨c0, c1, c2, hc012⟩ := List.length_eq_three.mp (hlen.trans hk)
    have hlens : c0.length + c1.length + c2.length
        = cu.funcs.length + next_cu.funcs.length := by
      rw [← htotal, ← hflat, hc012]
      simp [Nat.add_assoc]
    have heq : update_cu_map m cu.cu_id next_cu.cu_id state
        = some (c2.foldl (fun mm ea => set_cu_by_func_ea mm ea next_cu.cu_id)
              (c1.foldl (fun mm ea => set_cu_by_func_ea mm ea (get_next_cu_id m))
                (c0.foldl (fun mm ea => set_cu_by_func_ea mm ea cu.cu_id) m)),
            cu.funcs.length + next_cu.funcs.length, get_next_cu_id m) := by
      rw [update_cu_map]
      simp only [hk, hc012]
      norm_num [hlens]
    exact ⟨_, _, heq⟩

/-- Witness for C9: merging the two compile-units `[1, 2]` and `[3]` via
the one-bit state `0b100` reports three changes. -/
theorem claim_C9_witness :
    ∃ m' new_id, update_cu_map ⟨[1, 2, 3], [0, 0, 1]⟩ (0 : Int) 1 ⟨4, [1, 2, 3]⟩
      = some (m', 3, new_id) :=
  claim_C9 ⟨[1, 2, 3], [0, 0, 1]⟩ ⟨0, (0, 2), [1, 2]⟩ ⟨1, (2, 3), [3]⟩ ⟨4, [1, 2, 3]⟩
    rfl (by decide) (by decide) (by decide) (by decide) (by decide)

/-- On a strictly sorted list, `bisect_left` of the `i`-th element is `i`. -/
theorem bisect_left_of_sorted {l : List Nat} (hs : List.Pairwise (· < ·) l) :
    ∀ {i : Nat} (hi : i < l.length), bisect_left l (l.get ⟨i, hi⟩) = i := by
  induction l with
  | nil => intro i hi; simp at hi
  | cons x xs ih =>
    intro i hi
    match i with
    | 0 =>
      show ((x :: xs).takeWhile (fun y => y < x)).length = 0
      rw [List.takeWhile_cons]
      simp
    | k + 1 =>
      have hk : k < xs.length := by simpa using hi
      have hpc := List.pairwise_cons.mp hs
      have hlt : x < xs.get ⟨k, hk⟩ := hpc.1 _ (List.get_mem xs k hk)
      have hihk := ih hpc.2 hk
      show ((x :: xs).takeWhile (fun y => y < xs.get ⟨k, hk⟩)).length = k + 1
      rw [List.takeWhile_cons, if_pos (by simpa using hlt), List.length_cons]
      rw [bisect_left] at hihk
      omega

/-- C10: `set_cu_by_func_ea` on an absent address is a no-op; on a present
address `funcs[i]` (with the map's invariants: strictly increasing
addresses, parallel arrays of one length) it rewrites exactly entry `i` of
`func_to_cu` and nothing else. -/
theorem claim_C10 (m : CUMap) (ea : Nat) (cu_id : Int) :
    (ea ∉ m.funcs → set_cu_by_func_ea m ea cu_id = m) ∧
    (List.Pairwise (· < ·) m.funcs → m.func_to_cu.length = m.funcs.length →
      ∀ (i : Nat) (hi : i < m.funcs.length), m.funcs.get ⟨i, hi⟩ = ea →
        set_cu_by_func_ea m ea cu_id = ⟨m.funcs, m.func_to_cu.set i cu_id⟩ ∧
        (m.func_to_cu.set i cu_id)[i]? = some cu_id ∧
        ∀ j, j ≠ i → (m.func_to_cu.set i cu_id)[j]? = m.func_to_cu[j]?) := by
  constructor
  · intro hab
    by_cases hcond : bisect_left m.funcs ea ≠ m.funcs.length ∧ m.funcs.getD
        (bisect_left m.funcs ea) 0 = ea
    · exfalso
      obtain ⟨hne, hget⟩ := hcond
      have hle : bisect_left m.funcs ea ≤ m.funcs.length :=
        List.Sublist.length_le (List.takeWhile_sublist _)
      have hlt : bisect_left m.funcs ea < m.funcs.length := lt_of_le_of_ne hle hne
      refine hab ?_
      rw [← hget, List.getD_eq_getElem _ _ hlt]
      exact List.getElem_mem _
    · rw [set_cu_by_func_ea]
      simp only [if_neg hcond]
  · intro hsorted hlen i hi hea
    have hb : bisect_left m.funcs ea = i := by
      rw [← hea]
      exact bisect_left_of_sorted hsorted hi
    have hifl : i < m.func_to_cu.length := by omega
    refine ⟨?_, List.getElem?_set_eq hifl, fun j hj => List.getElem?_set_ne (by omega)⟩
    rw [set_cu_by_func_ea]
    simp only [hb]
    rw [if_pos ⟨by omega, by rw [List.getD_eq_getElem _ _ hi, ← hea]; rfl⟩]
    rfl

/-- Witness for C10 on the map `⟨[10, 20], [5, 6]⟩`: the absent address 15
changes nothing, and setting address 20 rewrites exactly entry 1. -/
theorem claim_C10_witness :
    (set_cu_by_func_ea ⟨[10, 20], [5, 6]⟩ 15 9 = ⟨[10, 20], [5, 6]⟩) ∧
    (set_cu_by_func_ea ⟨[10, 20], [5, 6]⟩ 20 9 = ⟨[10, 20], [5, 9]⟩ ∧
      (([5, 6] : List Int).set 1 9)[1]? = some 9 ∧
      ∀ j, j ≠ 1 → (([5, 6] : List Int).set 1 9)[j]? = ([5, 6] : List Int)[j]?) :=
  ⟨(claim_C10 ⟨[10, 20], [5, 6]⟩ 15 9).1 (by decide),
   (claim_C10 ⟨[10, 20], [5, 6]⟩ 20 9).2 (by decide) (by decide) 1 (by decide) (by decide)⟩

/-! ## JSON persistence (`CUMap.save_json` / `CUMap.load`, `cu_map.py`)

The JSON object written by `save_json` holds exactly two integer arrays;
it is embedded as an association list from key strings to `List Int`.
`json.dump(..., sort_keys=True)` writes the keys in sorted order
(`"func_to_cu" < "funcs"` because `'_' < 's'`), each array in address
order.  `CUMap.load`, in its `".json"` branch, first checks that both
`"funcs"` and `"func_to_cu"` are present (raising `TypeError` otherwise),
builds the map from `js["funcs"]`, and then reads `js["funcs_to_cu"]` — a
mis-spelling of the key the writer uses; on a file written by `save_json`
that subscript raises `KeyError`.  Python `dict` subscript and `in` are
embedded as association-list lookup. -/

def save_json_obj (m : CUMap) : List (String × List Int) :=
  [("func_to_cu", m.func_to_cu), ("funcs", m.funcs.map Int.ofNat)]

def lookupKey (js : List (String × List Int)) (k : String) : Option (List Int) :=
  (js.find? (fun kv => kv.1 == k)).map (fun kv => kv.2)

def load_json (js : List (String × List Int)) : Except String CUMap :=
  if (lookupKey js "funcs").isNone ∨ (lookupKey js "func_to_cu").isNone then
    Except.error "TypeError"
  else
    match lookupKey js "funcs" with
    | none => Except.error "TypeError"
    | some fs =>
      match lookupKey js "funcs_to_cu" with
      | none => Except.error "KeyError"
      | some ftc => Except.ok ⟨fs.map Int.toNat, ftc⟩

/-- C8 (code bug): `save_json` does write the object
`{"funcs": …, "func_to_cu": …}` with the two arrays of one length (under
the map invariant), but `load` applied to that object raises `KeyError`
instead of returning the map: it reads the mis-spelled key
`"funcs_to_cu"`, so save followed by load is never the identity. -/
theorem claim_C8 :
    (∀ m : CUMap,
      lookupKey (save_json_obj m) "funcs" = some (m.funcs.map Int.ofNat) ∧
      lookupKey (save_json_obj m) "func_to_cu" = some m.func_to_cu ∧
      (m.funcs.length = m.func_to_cu.length →
        (m.funcs.map Int.ofNat).length = m.func_to_cu.length) ∧
      load_json (save_json_obj m) = Except.error "KeyError") ∧
    load_json (save_json_obj ⟨[0], [0]⟩) = Except.error "KeyError" := by
  refine ⟨fun m => ⟨?_, ?_, ?_, ?_⟩, ?_⟩
  · rfl
  · rfl
  · intro h
    simpa using h
  · rfl
  · rfl

/-! ## `DataFitnessFunction.__init__` (`src/recover/fitness_function.py`)

The constructor iterates over the state's function list and calls
`util.get_func_data_refs(data.dfg, func, flatten=True)`.  The definition of
`get_func_data_refs` in `util.py` accepts the parameters
`dfg, func_ea, debug, merge, skip_sels` — there is no `flatten` parameter,
so by Python's call semantics the keyword call raises
`TypeError: get_func_data_refs() got an unexpected keyword argument 'flatten'`
before any data closure is computed.  The embedding keeps the loop
structure of the constructor (set difference against the accumulated
`nodes`, per-function `data_refs`), with the data references the call
would have returned supplied by an oracle `refs`, and models the keyword
check of the call. -/

def get_func_data_refs_kwargs : List String := ["debug", "merge", "skip_sels"]

def call_get_func_data_refs (kwargs : List String) (r : Finset Nat) :
    Except String (Finset Nat) :=
  if kwargs.all (fun kw => get_func_data_refs_kwargs.contains kw) then Except.ok r
  else Except.error "TypeError"

def dataFitnessFunction_init (refs : Nat → Finset Nat) (funcs : List Nat) :
    Except String (Finset Nat × List (Nat × Finset Nat)) :=
  funcs.foldlM
    (fun (acc : Finset Nat × List (Nat × Finset Nat)) f => do
      let r ← call_get_func_data_refs ["flatten"] (refs f)
      let func_data_refs := r \ acc.1
      pure (acc.1 ∪ func_data_refs, acc.2 ++ [(f, func_data_refs)]))
    (funcs.toFinset, [])

/-- C4 (code bug): for every DFG (oracle `refs`) and every non-empty
function list, the construction of `DataFitnessFunction` (hence of every
`Modularity` fitness function) fails with `TypeError` on its very first
call — `get_func_data_refs` has no `flatten` parameter — so no data
closure `D(f)` is ever computed. -/
theorem claim_C4 :
    (∀ (refs : Nat → Finset Nat) (funcs : List Nat), funcs ≠ [] →
      dataFitnessFunction_init refs funcs = Except.error "TypeError") ∧
    dataFitnessFunction_init (fun _ => ∅) [0] = Except.error "TypeError" := by
  constructor
  · intro refs funcs h
    obtain ⟨f, rest, rfl⟩ := List.exists_cons_of_ne_nil h
    rw [dataFitnessFunction_init, List.foldlM_cons]
    rfl
  · rfl

/-- Witness for C4: the construction over the one-function list `[0]`
fails with `TypeError`. -/
theorem claim_C4_witness :
    dataFitnessFunction_init (fun _ => ∅) [1] = Except.error "TypeError" :=
  claim_C4.1 (fun _ => ∅) [1] (by decide)

/-! ## `BruteForceFast._optimize` (`src/recover/optimizers/brute_force.py`)

`BruteForceFast._optimize` needs `State.siblings_fast`, which is called at
`brute_force.py:144` and `:156` but defined nowhere in `state.py`; it is
modelled below from the spec.  Fitness scores (Python floats produced by
`fitness_function.score`) are embedded as rationals, and the fitness
function itself as an oracle `score : State → ℚ`, since claim C5 is about
the search control flow, not about any particular fitness value.  The
per-`cu_id` score cache (`self._cu_scores`) enters as the `cached`
argument: `none` embeds a cache miss (the source then scores the initial
state), `some v` a hit. -/

/-- Modelled from the spec: `State.siblings_fast` is missing from
`src/recover/state.py` (only its callers in `BruteForceFast._optimize`
exist).  Per the spec it enumerates "the neighbourhood of states obtained
by adding one additional bit": every state of the same width whose bits
are the current bits plus one currently-unset bit below the most
significant position. -/
def State.siblings_fast (s : State) : List State :=
  (List.range (s.funcs.length - 1)).filterMap
    (fun i => if s.bits.testBit i then none else some ⟨s.bits ||| 2 ^ i, s.funcs⟩)

/-- Result of one `BruteForceFast._optimize` call: the states scored
during the search in order, the best state and score found, and whether
the commit branch (`_update_cu_map`) is taken. -/
structure BFFResult where
  scored : List State
  maxState : State
  maxScore : Rat
  commits : Bool
deriving DecidableEq

/-- `state = State.from_cu_list([cu.get_func_eas(), next_cu.get_func_eas()])`
(`brute_force.py:122`). -/
def bffInitState (cuFuncs nextFuncs : List Nat) : State :=
  State.from_cu_list [cuFuncs, nextFuncs]

/-- `State(1 << (num_bits - 1), state.funcs)` (`brute_force.py:141`): the
all-merged one-bit state. -/
def bffOneBit (cuFuncs nextFuncs : List Nat) : State :=
  ⟨2 ^ (cuFuncs.length + nextFuncs.length - 1), (bffInitState cuFuncs nextFuncs).funcs⟩

/-- First search loop (`brute_force.py:144-154`): iterate over the
`siblings_fast` of the one-bit state (the generator is created from
`prev_max_state` *before* the loop body ever reassigns it), tracking
`(prev_max_state, max_state, max_score)`. -/
def bffPass1 (score : State → Rat) (cuFuncs nextFuncs : List Nat) :
    State × State × Rat :=
  (bffOneBit cuFuncs nextFuncs).siblings_fast.foldl
    (fun (acc : State × State × Rat) ns =>
      if score ns > acc.2.2 then (ns, ns, score ns) else acc)
    (bffOneBit cuFuncs nextFuncs, bffOneBit cuFuncs nextFuncs,
      score (bffOneBit cuFuncs nextFuncs))

/-- Second search loop (`brute_force.py:156-166`): iterate over the
`siblings_fast` of the pass-1 `prev_max_state`, tracking
`(max_state, max_score)`. -/
def bffPass2 (score : State → Rat) (cuFuncs nextFuncs : List Nat) : State × Rat :=
  (bffPass1 score cuFuncs nextFuncs).1.siblings_fast.foldl
    (fun (acc : State × Rat) ns => if score ns > acc.2 then (ns, score ns) else acc)
    ((bffPass1 score cuFuncs nextFuncs).2.1, (bffPass1 score cuFuncs nextFuncs).2.2)

/-- `BruteForceFast._optimize` (`brute_force.py:115-180`) up to the commit
decision: `scored` lists the states passed to `fitness_function.score`
during the search, and `commits` is the `max_score > score and max_state
!= state` test of line 168 (`State` is an `int` subclass, so `!=` compares
the bit-vectors). -/
def brute_force_fast_optimize (score : State → Rat) (cached : Option Rat)
    (cuFuncs nextFuncs : List Nat) : BFFResult :=
  let score0 := cached.getD (score (bffInitState cuFuncs nextFuncs))
  ⟨bffOneBit cuFuncs nextFuncs :: ((bffOneBit cuFuncs nextFuncs).siblings_fast
      ++ (bffPass1 score cuFuncs nextFuncs).1.siblings_fast),
    (bffPass2 score cuFuncs nextFuncs).1,
    (bffPass2 score cuFuncs nextFuncs).2,
    decide ((bffPass2 score cuFuncs nextFuncs).2 > score0)
      && decide ((bffPass2 score cuFuncs nextFuncs).1.bits
        ≠ (bffInitState cuFuncs nextFuncs).bits)⟩

theorem foldl_bff1 (score : State → Rat) (l : List State) :
    ∀ acc : State × State × Rat,
      (l.foldl (fun (acc : State × State × Rat) ns =>
          if score ns > acc.2.2 then (ns, ns, score ns) else acc) acc = acc
        ∨ ((l.foldl (fun (acc : State × State × Rat) ns =>
            if score ns > acc.2.2 then (ns, ns, score ns) else acc) acc).1 ∈ l
          ∧ (l.foldl (fun (acc : State × State × Rat) ns =>
            if score ns > acc.2.2 then (ns, ns, score ns) else acc) acc).2.1
            = (l.foldl (fun (acc : State × State × Rat) ns =>
              if score ns > acc.2.2 then (ns, ns, score ns) else acc) acc).1
          ∧ (l.foldl (fun (acc : State × State × Rat) ns =>
            if score ns > acc.2.2 then (ns, ns, score ns) else acc) acc).2.2
            = score (l.foldl (fun (acc : State × State × Rat) ns =>
              if score ns > acc.2.2 then (ns, ns, score ns) else acc) acc).1))
      ∧ acc.2.2 ≤ (l.foldl (fun (acc : State × State × Rat) ns =>
          if score ns > acc.2.2 then (ns, ns, score ns) else acc) acc).2.2
      ∧ ∀ t ∈ l, score t ≤ (l.foldl (fun (acc : State × State × Rat) ns =>
          if score ns > acc.2.2 then (ns, ns, score ns) else acc) acc).2.2 := by
  induction l with
  | nil => exact fun acc => ⟨Or.inl rfl, le_refl _, fun t ht => absurd ht (by simp)⟩
  | cons x rest ih =>
    intro acc
    rw [List.foldl_cons]
    by_cases hx : score x > acc.2.2
    · rw [if_pos hx]
      obtain ⟨hd, hle, hall⟩ := ih (x, x, score x)
      refine ⟨?_, le_trans (le_of_lt hx) hle, ?_⟩
      · rcases hd with hd | hd
        · rw [hd]
          exact Or.inr ⟨by simp, rfl, rfl⟩
        · exact Or.inr ⟨List.mem_cons_of_mem _ hd.1, hd.2.1, hd.2.2⟩
      · intro t ht
        rcases List.mem_cons.mp ht with rfl | ht
        · exact le_trans (le_refl _) hle
        · exact hall t ht
    · rw [if_neg hx]
      obtain ⟨hd, hle, hall⟩ := ih acc
      refine ⟨?_, hle, ?_⟩
      · rcases hd with hd | hd
        · exact Or.inl hd
        · exact Or.inr ⟨List.mem_cons_of_mem _ hd.1, hd.2.1, hd.2.2⟩
      · intro t ht
        rcases List.mem_cons.mp ht with rfl | ht
        · exact le_trans (le_of_not_lt hx) hle
        · exact hall t ht

theorem foldl_bff2 (score : State → Rat) (l : List State) :
    ∀ acc : State × Rat,
      (l.foldl (fun (acc : State × Rat) ns =>
          if score ns > acc.2 then (ns, score ns) else acc) acc = acc
        ∨ ((l.foldl (fun (acc : State × Rat) ns =>
            if score ns > acc.2 then (ns, score ns) else acc) acc).1 ∈ l
          ∧ (l.foldl (fun (acc : State × Rat) ns =>
            if score ns > acc.2 then (ns, score ns) else acc) acc).2
            = score (l.foldl (fun (acc : State × Rat) ns =>
              if score ns > acc.2 then (ns, score ns) else acc) acc).1))
      ∧ acc.2 ≤ (l.foldl (fun (acc : State × Rat) ns =>
          if score ns > acc.2 then (ns, score ns) else acc) acc).2
      ∧ ∀ t ∈ l, score t ≤ (l.foldl (fun (acc : State × Rat) ns =>
          if score ns > acc.2 then (ns, score ns) else acc) acc).2 := by
  induction l with
  | nil => exact fun acc => ⟨Or.inl rfl, le_refl _, fun t ht => absurd ht (by simp)⟩
  | cons x rest ih =>
    intro acc
    rw [List.foldl_cons]
    by_cases hx : score x > acc.2
    · rw [if_pos hx]
      obtain ⟨hd, hle, hall⟩ := ih (x, score x)
      refine ⟨?_, le_trans (le_of_lt hx) hle, ?_⟩
      · rcases hd with hd | hd
        · rw [hd]
          exact Or.inr ⟨by simp, rfl⟩
        · exact Or.inr ⟨List.mem_cons_of_mem _ hd.1, hd.2⟩
      · intro t ht
        rcases List.mem_cons.mp ht with rfl | ht
        · exact le_trans (le_refl _) hle
        · exact hall t ht
    · rw [if_neg hx]
      obtain ⟨hd, hle, hall⟩ := ih acc
      refine ⟨?_, hle, ?_⟩
      · rcases hd with hd | hd
        · exact Or.inl hd
        · exact Or.inr ⟨List.mem_cons_of_mem _ hd.1, hd.2⟩
      · intro t ht
        rcases List.mem_cons.mp ht with rfl | ht
        · exact le_trans (le_of_not_lt hx) hle
        · exact hall t ht

theorem bit_count_two_pow (k : Nat) : bit_count (2 ^ k) = 1 := by
  rw [bit_count_eq_length_bitIndices, Nat.bitIndices_two_pow]
  rfl

theorem length_filter_or_single {i w : Nat} (hi : i < w) (p : Nat → Bool)
    (hp : p i = false) :
    ((List.range w).filter (fun j => p j || decide (j = i))).length
      = ((List.range w).filter p).length + 1 := by
  induction w with
  | zero => omega
  | succ w ih =>
    rw [List.range_succ, List.filter_append, List.filter_append,
      List.length_append, List.length_append]
    rcases Nat.lt_or_ge i w with hiw | hiw
    · have hne : w ≠ i := by omega
      rw [ih hiw, List.filter_cons, List.filter_cons]
      by_cases hw : p w = true
      · rw [if_pos (by simp [hw]), if_pos hw]
        simp
      · have hw' : p w = false := Bool.eq_false_iff.mpr hw
        rw [if_neg (by simp [hw', hne]), if_neg (by simp [hw'])]
        simp
    · have hieq : i = w := by omega
      subst hieq
      have hcong : (List.range i).filter (fun j => p j || decide (j = i))
          = (List.range i).filter p := by
        refine List.filter_congr (fun a ha => ?_)
        have : ¬ (a = i) := by
          have := List.mem_range.mp ha
          omega
        simp [this]
      rw [hcong]
      simp only [List.filter_cons, List.filter_nil]
      rw [if_pos (by simp [hp]), if_neg (by simp [hp])]
      simp

theorem bit_count_lor_two_pow {x i w : Nat} (hx : x < 2 ^ w) (hiw : i < w)
    (hbit : x.testBit i = false) : bit_count (x ||| 2 ^ i) = bit_count x + 1 := by
  have hpow : 2 ^ i < 2 ^ w := Nat.pow_lt_pow_right (by norm_num) hiw
  have hlt : x ||| 2 ^ i < 2 ^ w := Nat.or_lt_two_pow hx hpow
  rw [bit_count_eq_filter_range hlt, bit_count_eq_filter_range hx]
  have hcong : (List.range w).filter (fun j => (x ||| 2 ^ i).testBit j)
      = (List.range w).filter (fun j => x.testBit j || decide (j = i)) := by
    refine List.filter_congr (fun a _ => ?_)
    rw [Nat.testBit_lor, Nat.testBit_two_pow]
    rw [decide_eq_decide.mpr (by constructor <;> exact Eq.symm)]
  rw [hcong, length_filter_or_single hiw _ hbit]

theorem mem_siblings_fast {s t : State} (h : t ∈ s.siblings_fast) :
    ∃ i, i < s.funcs.length - 1 ∧ s.bits.testBit i = false
      ∧ t = ⟨s.bits ||| 2 ^ i, s.funcs⟩ := by
  rw [State.siblings_fast, List.mem_filterMap] at h
  obtain ⟨i, hi, hcase⟩ := h
  refine ⟨i, List.mem_range.mp hi, ?_, ?_⟩ <;>
    by_cases hb : s.bits.testBit i <;> simp [hb] at hcase ⊢
  · exact hcase.symm

/-- C5: `BruteForceFast._optimize` scores the all-merged one-bit state,
then the two-bit states reached from it by adding one bit
(`siblings_fast`), then once more the `siblings_fast` of the best state of
the first pass — three-bit refinements whenever some two-bit state beat
the one-bit state — and takes the commit branch exactly when the best
score found strictly beats the cached initial score and the best state
differs from the initial state. -/
theorem claim_C5 (score : State → Rat) (cached : Option Rat)
    (cuFuncs nextFuncs : List Nat) :
    (brute_force_fast_optimize score cached cuFuncs nextFuncs).scored
      = bffOneBit cuFuncs nextFuncs :: ((bffOneBit cuFuncs nextFuncs).siblings_fast
        ++ (bffPass1 score cuFuncs nextFuncs).1.siblings_fast)
    ∧ bit_count (bffOneBit cuFuncs nextFuncs).bits = 1
    ∧ (∀ t ∈ (bffOneBit cuFuncs nextFuncs).siblings_fast, bit_count t.bits = 2)
    ∧ ((∃ t ∈ (bffOneBit cuFuncs nextFuncs).siblings_fast,
          score t > score (bffOneBit cuFuncs nextFuncs)) →
        (bffPass1 score cuFuncs nextFuncs).1
            ∈ (bffOneBit cuFuncs nextFuncs).siblings_fast
        ∧ bit_count (bffPass1 score cuFuncs nextFuncs).1.bits = 2
        ∧ ∀ t ∈ (bffPass1 score cuFuncs nextFuncs).1.siblings_fast,
            bit_count t.bits = 3)
    ∧ (∀ t ∈ (brute_force_fast_optimize score cached cuFuncs nextFuncs).scored,
        score t ≤ (brute_force_fast_optimize score cached cuFuncs nextFuncs).maxScore)
    ∧ score (brute_force_fast_optimize score cached cuFuncs nextFuncs).maxState
        = (brute_force_fast_optimize score cached cuFuncs nextFuncs).maxScore
    ∧ ((brute_force_fast_optimize score cached cuFuncs nextFuncs).commits = true ↔
        (brute_force_fast_optimize score cached cuFuncs nextFuncs).maxScore
          > cached.getD (score (bffInitState cuFuncs nextFuncs))
        ∧ (brute_force_fast_optimize score cached cuFuncs nextFuncs).maxState.bits
          ≠ (bffInitState cuFuncs nextFuncs).bits) := by
  have hfun1 : (bffOneBit cuFuncs nextFuncs).funcs.length
      = cuFuncs.length + nextFuncs.length := by
    simp [bffOneBit, bffInitState, State.from_cu_list]
  have hbits1 : (bffOneBit cuFuncs nextFuncs).bits
      = 2 ^ (cuFuncs.length + nextFuncs.length - 1) := rfl
  have hP1 :
      ((bffPass1 score cuFuncs nextFuncs)
          = (bffOneBit cuFuncs nextFuncs, bffOneBit cuFuncs nextFuncs,
            score (bffOneBit cuFuncs nextFuncs))
        ∨ ((bffPass1 score cuFuncs nextFuncs).1
            ∈ (bffOneBit cuFuncs nextFuncs).siblings_fast
          ∧ (bffPass1 score cuFuncs nextFuncs).2.1
            = (bffPass1 score cuFuncs nextFuncs).1
          ∧ (bffPass1 score cuFuncs nextFuncs).2.2
            = score (bffPass1 score cuFuncs nextFuncs).1))
      ∧ score (bffOneBit cuFuncs nextFuncs) ≤ (bffPass1 score cuFuncs nextFuncs).2.2
      ∧ ∀ t ∈ (bffOneBit cuFuncs nextFuncs).siblings_fast,
          score t ≤ (bffPass1 score cuFuncs nextFuncs).2.2 :=
    foldl_bff1 score (bffOneBit cuFuncs nextFuncs).siblings_fast
      (bffOneBit cuFuncs nextFuncs, bffOneBit cuFuncs nextFuncs,
        score (bffOneBit cuFuncs nextFuncs))
  have hP2 :
      ((bffPass2 score cuFuncs nextFuncs)
          = ((bffPass1 score cuFuncs nextFuncs).2.1,
            (bffPass1 score cuFuncs nextFuncs).2.2)
        ∨ ((bffPass2 score cuFuncs nextFuncs).1
            ∈ (bffPass1 score cuFuncs nextFuncs).1.siblings_fast
          ∧ (bffPass2 score cuFuncs nextFuncs).2
            = score (bffPass2 score cuFuncs nextFuncs).1))
      ∧ (bffPass1 score cuFuncs nextFuncs).2.2 ≤ (bffPass2 score cuFuncs nextFuncs).2
      ∧ ∀ t ∈ (bffPass1 score cuFuncs nextFuncs).1.siblings_fast,
          score t ≤ (bffPass2 score cuFuncs nextFuncs).2 :=
    foldl_bff2 score (bffPass1 score cuFuncs nextFuncs).1.siblings_fast
      ((bffPass1 score cuFuncs nextFuncs).2.1, (bffPass1 score cuFuncs nextFuncs).2.2)
  have hsib1 : ∀ t ∈ (bffOneBit cuFuncs nextFuncs).siblings_fast,
      bit_count t.bits = 2 ∧ t.bits < 2 ^ (cuFuncs.length + nextFuncs.length)
        ∧ t.funcs = (bffOneBit cuFuncs nextFuncs).funcs := by
    intro t ht
    obtain ⟨i, hi, hbit, rfl⟩ := mem_siblings_fast ht
    rw [hfun1] at hi
    have hn1 : 1 ≤ cuFuncs.length + nextFuncs.length := by omega
    have hx : (bffOneBit cuFuncs nextFuncs).bits < 2 ^ (cuFuncs.length + nextFuncs.length) := by
      rw [hbits1]
      exact Nat.pow_lt_pow_right (by norm_num) (by omega)
    refine ⟨?_, ?_, rfl⟩
    · show bit_count ((bffOneBit cuFuncs nextFuncs).bits ||| 2 ^ i) = 2
      rw [bit_count_lor_two_pow hx (by omega) hbit, hbits1, bit_count_two_pow]
    · show (bffOneBit cuFuncs nextFuncs).bits ||| 2 ^ i < 2 ^ (cuFuncs.length + nextFuncs.length)
      exact Nat.or_lt_two_pow hx (Nat.pow_lt_pow_right (by norm_num) (by omega))
  refine ⟨rfl, ?_, fun t ht => (hsib1 t ht).1, ?_, ?_, ?_, ?_⟩
  · rw [hbits1, bit_count_two_pow]
  · intro himp
    obtain ⟨t0, ht0, ht0s⟩ := himp
    have hne : bffPass1 score cuFuncs nextFuncs
        ≠ (bffOneBit cuFuncs nextFuncs, bffOneBit cuFuncs nextFuncs,
          score (bffOneBit cuFuncs nextFuncs)) := by
      intro hcon
      have hle := hP1.2.2 t0 ht0
      rw [hcon] at hle
      exact absurd ht0s (not_lt.mpr hle)
    have hmem := (hP1.1.resolve_left hne).1
    obtain ⟨hbc2, hlt2, hfn2⟩ := hsib1 _ hmem
    refine ⟨hmem, hbc2, fun t ht => ?_⟩
    obtain ⟨i, hi, hbit, rfl⟩ := mem_siblings_fast ht
    rw [hfn2, hfun1] at hi
    show bit_count ((bffPass1 score cuFuncs nextFuncs).1.bits ||| 2 ^ i) = 3
    rw [bit_count_lor_two_pow hlt2 (by omega) hbit, hbc2]
  · intro t ht
    rcases List.mem_cons.mp ht with rfl | ht
    · exact le_trans hP1.2.1 hP2.2.1
    · rcases List.mem_append.mp ht with ht | ht
      · exact le_trans (hP1.2.2 t ht) hP2.2.1
      · exact hP2.2.2 t ht
  · show score (bffPass2 score cuFuncs nextFuncs).1 = (bffPass2 score cuFuncs nextFuncs).2
    rcases hP2.1 with h2 | h2
    · rw [h2]
      rcases hP1.1 with h1 | h1
      · rw [h1]
      · rw [h1.2.1, h1.2.2]
    · exact h2.2.symm
  · show (decide ((bffPass2 score cuFuncs nextFuncs).2
        > cached.getD (score (bffInitState cuFuncs nextFuncs)))
      && decide ((bffPass2 score cuFuncs nextFuncs).1.bits
        ≠ (bffInitState cuFuncs nextFuncs).bits)) = true ↔ _
    rw [Bool.and_eq_true, decide_eq_true_eq, decide_eq_true_eq]
    exact Iff.rfl

/-- Witness for C5 with the score `s ↦ s.bits` over the pair `[10]`,
`[20, 30]` (an instance where a two-bit state beats the one-bit state, so
the second pass runs over three-bit refinements). -/
theorem claim_C5_witness :
    (brute_force_fast_optimize (fun s => (s.bits : Rat)) (some 5) [10] [20, 30]).scored
      = bffOneBit [10] [20, 30] :: ((bffOneBit [10] [20, 30]).siblings_fast
        ++ (bffPass1 (fun s => (s.bits : Rat)) [10] [20, 30]).1.siblings_fast)
    ∧ bit_count (bffOneBit [10] [20, 30]).bits = 1
    ∧ (bffPass1 (fun s => (s.bits : Rat)) [10] [20, 30]).1
        ∈ (bffOneBit [10] [20, 30]).siblings_fast :=
  ⟨(claim_C5 (fun s => (s.bits : Rat)) (some 5) [10] [20, 30]).1,
   (claim_C5 (fun s => (s.bits : Rat)) (some 5) [10] [20, 30]).2.1,
   ((claim_C5 (fun s => (s.bits : Rat)) (some 5) [10] [20, 30]).2.2.2.1
     (by decide)).1⟩

/-! ## `Optimizer.optimize` (`src/recover/optimizer.py:160-219`)

The convergence loop.  Three aspects are parameters of the embedding:

* `optimizeFn` — the abstract `self._optimize` (an `abc.abstractmethod`
  implemented by subclasses), which mutates the compile-unit map and
  returns `(num_cu_changes, new_cu_id)`; embedded as a function from the
  current map and the two compile-units to the new map and that pair;
* `orderFn` — the iteration order of `for cu_id in set(modified_cus)`
  (Python set order is unspecified); the loop body folds over the
  snapshot list `orderFn` returns for the current set;
* `getId` — `cu_map.get_id()`, a SHA-256 hex digest in the source; the
  hash itself is not embeddable, so fingerprints are an opaque type `σ`
  with decidable equality and `getId` an arbitrary function to it.

`num_changes`/`prev_num_changes` are Python ints, hence `Int`.  `warned`
records whether the "Optimization completed with recursion" warning of
line 213 was emitted. -/

structure OptState (σ : Type) where
  cuMap : CUMap
  modified : Finset Int
  ids : List σ
  numChanges : Int
  prevNumChanges : Int
  warned : Bool

/-- Body of the `for cu_id in set(modified_cus)` loop
(`optimizer.py:191-209`) for one `cu_id`. -/
def optimizeCuStep {σ : Type} (optimizeFn : CUMap → CUInfo → CUInfo → CUMap × Int × Int)
    (st : OptState σ) (cu_id : Int) : OptState σ :=
  match get_cu_by_cu_id st.cuMap cu_id with
  | none => { st with modified := st.modified.erase cu_id }
  | some cu =>
    match get_next_cu st.cuMap cu with
    | none => { st with modified := st.modified.erase cu_id }
    | some next_cu =>
      let r := optimizeFn st.cuMap cu next_cu
      let mod1 := if 0 < r.2.1 then
          (match get_prev_cu r.1 cu with
            | some prev_cu => insert prev_cu.cu_id st.modified
            | none => st.modified)
        else st.modified
      let mod2 := if r.2.1 = 0 then mod1.erase cu_id else mod1
      let mod3 := if 0 ≤ r.2.2 then insert r.2.2 mod2 else mod2
      { st with cuMap := r.1, modified := mod3, numChanges := st.numChanges + r.2.1 }

/-- One round of the `while modified_cus` loop, before the fingerprint
check: fold the per-`cu_id` step over the snapshot of the set. -/
def optimizeRound {σ : Type} (optimizeFn : CUMap → CUInfo → CUInfo → CUMap × Int × Int)
    (order : List Int) (st : OptState σ) : OptState σ :=
  order.foldl (optimizeCuStep optimizeFn) st

/-- The fingerprint check at the end of each round (`optimizer.py:211-217`):
if changes were made this round and the fingerprint was seen before, warn
and clear `modified_cus`; then append the fingerprint and roll
`prev_num_changes` forward. -/
def optimizeCheck {σ : Type} [DecidableEq σ] (getId : CUMap → σ)
    (st1 : OptState σ) : OptState σ :=
  let fp := getId st1.cuMap
  let st2 := if st1.numChanges > st1.prevNumChanges ∧ fp ∈ st1.ids then
      { st1 with modified := ∅, warned := true }
    else st1
  { st2 with ids := st1.ids ++ [fp], prevNumChanges := st1.numChanges }

def optimizeStep {σ : Type} [DecidableEq σ]
    (optimizeFn : CUMap → CUInfo → CUInfo → CUMap × Int × Int)
    (orderFn : Finset Int → List Int) (getId : CUMap → σ) (st : OptState σ) :
    OptState σ :=
  optimizeCheck getId (optimizeRound optimizeFn (orderFn st.modified) st)

/-- The `while modified_cus:` loop of `Optimizer.optimize`, with fuel
(`none` = the loop has not terminated within `fuel` rounds); on exit it
returns the total `num_changes` and whether the recursion warning fired. -/
def optimizeLoop {σ : Type} [DecidableEq σ]
    (optimizeFn : CUMap → CUInfo → CUInfo → CUMap × Int × Int)
    (orderFn : Finset Int → List Int) (getId : CUMap → σ) :
    Nat → OptState σ → Option (Int × Bool)
  | 0, st => if st.modified = ∅ then some (st.numChanges, st.warned) else none
  | fuel + 1, st =>
    if st.modified = ∅ then some (st.numChanges, st.warned)
    else optimizeLoop optimizeFn orderFn getId fuel
      (optimizeStep optimizeFn orderFn getId st)

theorem optimizeCuStep_frame {σ : Type}
    (optimizeFn : CUMap → CUInfo → CUInfo → CUMap × Int × Int)
    (st : OptState σ) (cu_id : Int) :
    (optimizeCuStep optimizeFn st cu_id).prevNumChanges = st.prevNumChanges
    ∧ (optimizeCuStep optimizeFn st cu_id).ids = st.ids
    ∧ (optimizeCuStep optimizeFn st cu_id).warned = st.warned := by
  rw [optimizeCuStep]
  split
  · exact ⟨rfl, rfl, rfl⟩
  · split
    · exact ⟨rfl, rfl, rfl⟩
    · exact ⟨rfl, rfl, rfl⟩

theorem optimizeRound_frame {σ : Type}
    (optimizeFn : CUMap → CUInfo → CUInfo → CUMap × Int × Int)
    (order : List Int) :
    ∀ st : OptState σ,
      (optimizeRound optimizeFn order st).prevNumChanges = st.prevNumChanges
      ∧ (optimizeRound optimizeFn order st).ids = st.ids
      ∧ (optimizeRound optimizeFn order st).warned = st.warned := by
  induction order with
  | nil => exact fun st => ⟨rfl, rfl, rfl⟩
  | cons c rest ih =>
    intro st
    have hstep := optimizeCuStep_frame optimizeFn st c
    have hrest := ih (optimizeCuStep optimizeFn st c)
    rw [optimizeRound, List.foldl_cons]
    refine ⟨?_, ?_, ?_⟩
    · rw [show (List.foldl (optimizeCuStep optimizeFn) (optimizeCuStep optimizeFn st c)
        rest) = optimizeRound optimizeFn rest (optimizeCuStep optimizeFn st c) from rfl,
        hrest.1, hstep.1]
    · rw [show (List.foldl (optimizeCuStep optimizeFn) (optimizeCuStep optimizeFn st c)
        rest) = optimizeRound optimizeFn rest (optimizeCuStep optimizeFn st c) from rfl,
        hrest.2.1, hstep.2.1]
    · rw [show (List.foldl (optimizeCuStep optimizeFn) (optimizeCuStep optimizeFn st c)
        rest) = optimizeRound optimizeFn rest (optimizeCuStep optimizeFn st c) from rfl,
        hrest.2.2, hstep.2.2]

/-- C6: whenever a round ends with the map's fingerprint among the
recorded ones while the cumulative change count grew during the round,
the check clears `modified_cus`, emits the recursion warning, and the
loop exits right after that round — for every remaining fuel — returning
that round's cumulative change count. -/
theorem claim_C6 {σ : Type} [DecidableEq σ]
    (optimizeFn : CUMap → CUInfo → CUInfo → CUMap × Int × Int)
    (orderFn : Finset Int → List Int) (getId : CUMap → σ)
    (st : OptState σ) (fuel : Nat)
    (hne : st.modified ≠ ∅)
    (hchanges : (optimizeRound optimizeFn (orderFn st.modified) st).numChanges
      > st.prevNumChanges)
    (hfp : getId (optimizeRound optimizeFn (orderFn st.modified) st).cuMap ∈ st.ids) :
    (optimizeStep optimizeFn orderFn getId st).modified = ∅
    ∧ (optimizeStep optimizeFn orderFn getId st).warned = true
    ∧ optimizeLoop optimizeFn orderFn getId (fuel + 1) st
      = some ((optimizeRound optimizeFn (orderFn st.modified) st).numChanges, true) := by
  have hframe := optimizeRound_frame optimizeFn (orderFn st.modified) st
  have hcond : (optimizeRound optimizeFn (orderFn st.modified) st).numChanges
      > (optimizeRound optimizeFn (orderFn st.modified) st).prevNumChanges
      ∧ getId (optimizeRound optimizeFn (orderFn st.modified) st).cuMap
        ∈ (optimizeRound optimizeFn (orderFn st.modified) st).ids := by
    rw [hframe.1, hframe.2.1]
    exact ⟨hchanges, hfp⟩
  have hstep : optimizeStep optimizeFn orderFn getId st
      = { optimizeRound optimizeFn (orderFn st.modified) st with
          modified := ∅, warned := true,
          ids := (optimizeRound optimizeFn (orderFn st.modified) st).ids
            ++ [getId (optimizeRound optimizeFn (orderFn st.modified) st).cuMap],
          prevNumChanges :=
            (optimizeRound optimizeFn (orderFn st.modified) st).numChanges } := by
    rw [optimizeStep, optimizeCheck]
    simp only [if_pos hcond]
  refine ⟨by rw [hstep], by rw [hstep], ?_⟩
  rw [optimizeLoop, if_neg hne]
  cases fuel with
  | zero =>
    rw [optimizeLoop, hstep]
    exact if_pos rfl
  | succ f =>
    rw [optimizeLoop, hstep]
    exact if_pos rfl

/-- Witness for C6: a one-element modified set whose round makes changes
(numChanges 5 over prevNumChanges 0) and whose fingerprint 0 is already
recorded; the loop stops with the warning after one round. -/
theorem claim_C6_witness :
    (optimizeStep (fun m _ _ => (m, 1, -1)) (fun _ => []) (fun _ => (0 : Nat))
      (⟨⟨[], []⟩, {0}, [0], 5, 0, false⟩ : OptState Nat)).modified = ∅
    ∧ (optimizeStep (fun m _ _ => (m, 1, -1)) (fun _ => []) (fun _ => (0 : Nat))
      (⟨⟨[], []⟩, {0}, [0], 5, 0, false⟩ : OptState Nat)).warned = true
    ∧ optimizeLoop (fun m _ _ => (m, 1, -1)) (fun _ => []) (fun _ => (0 : Nat)) 1
      (⟨⟨[], []⟩, {0}, [0], 5, 0, false⟩ : OptState Nat) = some (5, true) :=
  claim_C6 (fun m _ _ => (m, 1, -1)) (fun _ => []) (fun _ => (0 : Nat))
    ⟨⟨[], []⟩, {0}, [0], 5, 0, false⟩ 0 (by decide) (by decide) (by decide)

/-! ## Articulation-point estimation (`src/recover/estimators/articulation_points.py`)

`_Base._estimate` takes the undirected view of the segment's AFCG, sorts
its nodes (`func_eas = list(sorted(afcg))`) and the articulation points
(`networkx.articulation_points`, each cut vertex yielded once), and labels
the functions between consecutive articulation points.  For the claim's
concrete instance the graph is the path `f0-f1-f2-f3-f4`.

`networkx.articulation_points` is library code, embedded through the
standard definition of a cut vertex: `v` is an articulation point iff two
vertices other than `v` are connected in the graph but not once `v` (and
its incident edges) is removed.  Connectivity is computed by a bounded
closure (`|V|` expansion steps always reach the fixpoint).  Python's
`sorted` is an ascending sort, embedded as insertion sort. -/

def uadj (edges : List (Nat × Nat)) (u v : Nat) : Bool :=
  edges.any (fun e => (e.1 == u && e.2 == v) || (e.1 == v && e.2 == u))

def reachStep (nodes : List Nat) (edges : List (Nat × Nat)) (avoid : Option Nat)
    (cur : List Nat) : List Nat :=
  nodes.filter (fun v =>
    cur.contains v || (decide (some v ≠ avoid) && cur.any (fun u => uadj edges u v)))

def reachN (nodes : List Nat) (edges : List (Nat × Nat)) (avoid : Option Nat) :
    Nat → List Nat → List Nat
  | 0, cur => cur
  | fuel + 1, cur => reachN nodes edges avoid fuel (reachStep nodes edges avoid cur)

def connectedExc (nodes : List Nat) (edges : List (Nat × Nat)) (avoid : Option Nat)
    (u w : Nat) : Bool :=
  (reachN nodes edges avoid nodes.length [u]).contains w

def is_articulation_point (nodes : List Nat) (edges : List (Nat × Nat)) (v : Nat) :
    Bool :=
  nodes.any (fun u => nodes.any (fun w =>
    decide (u ≠ v) && decide (w ≠ v) && connectedExc nodes edges none u w
      && !(connectedExc nodes edges (some v) u w)))

def articulation_points (nodes : List Nat) (edges : List (Nat × Nat)) : List Nat :=
  nodes.filter (is_articulation_point nodes edges)

def insertSorted (x : Nat) : List Nat → List Nat
  | [] => [x]
  | y :: ys => if x ≤ y then x :: y :: ys else y :: insertSorted x ys

def pySorted (l : List Nat) : List Nat :=
  l.foldr insertSorted []

/-- Python's `list.index(x, start)` (`func_eas.index(ap, prev_j)` in the
source): first position at or after `start` holding `x`; the source's
`ValueError` case is never reached in the estimation loop, where every
articulation point is a node. -/
def list_index_from (l : List Nat) (x : Nat) (start : Nat) : Nat :=
  start + (l.drop start).indexOf x

/-- The `for i, ap in enumerate(sorted(...))` loop of `_Base._estimate`
(`articulation_points.py:55-59`): `c` is the enumerate counter, `iLast`
the last value the loop variable `i` took (0 before the first iteration,
as in the source where `i` is pre-initialised to 0), `prevJ` the running
`prev_j`.  Returns the updated map together with the final `i` and
`prev_j`. -/
def apsAssign (funcEas : List Nat) :
    List Nat → Nat → Nat → Nat → CUMap → CUMap × Nat × Nat
  | [], _, iLast, prevJ, m => (m, iLast, prevJ)
  | ap :: rest, c, _, prevJ, m =>
    let j := list_index_from funcEas ap prevJ
    let m1 := (List.range' prevJ (j - prevJ)).foldl
      (fun mm k => set_cu_by_func_idx mm k (Int.ofNat (c + 1))) m
    apsAssign funcEas rest (c + 1) c j m1

/-- `_Base._estimate` (`articulation_points.py:39-67`) given the sorted
function list and the sorted articulation points: a fresh `CUMap`
(`func_to_cu` initialised to `-1`), the enumerate loop, the tail loop
(which reuses `i + 1` — the identifier of the segment produced by the
*last* loop iteration), and `renumber`. -/
def aps_estimate (funcEas : List Nat) (aps : List Nat) : CUMap :=
  let m0 : CUMap := ⟨funcEas, List.replicate funcEas.length (-1)⟩
  let r := apsAssign funcEas aps 0 0 0 m0
  let m2 := (List.range' r.2.2 (funcEas.length - r.2.2)).foldl
    (fun mm k => set_cu_by_func_idx mm k (Int.ofNat (r.2.1 + 1))) r.1
  renumber m2

/-- `APSNSE.estimate` on a one-segment AFCG given as an undirected node and
edge list. -/
def apsnse_estimate (nodes : List Nat) (edges : List (Nat × Nat)) : CUMap :=
  let func_eas := pySorted nodes
  aps_estimate func_eas (pySorted (articulation_points func_eas edges))

def pathNodes : List Nat := [0, 1, 2, 3, 4]

def pathEdges : List (Nat × Nat) := [(0, 1), (1, 2), (2, 3), (3, 4)]

/-- C3 (code bug): on the path `f0-f1-f2-f3-f4` the articulation points
are `{f1, f2, f3}` as the claim says, but the estimator returns THREE
compile-units `[f0], [f1], [f2, f3, f4]` (labels `[0, 1, 2, 2, 2]` after
renumbering), not the claim's four `[f0], [f1], [f2], [f3, f4]` (labels
`[0, 1, 2, 3, 3]`): the tail loop labels the functions after the last
articulation point with `i + 1`, the same identifier the last enumerate
iteration gave to the segment before that articulation point, so the two
merge into one run. -/
theorem claim_C3 :
    pySorted (articulation_points (pySorted pathNodes) pathEdges) = [1, 2, 3]
    ∧ apsnse_estimate pathNodes pathEdges
      = ⟨[0, 1, 2, 3, 4], [0, 1, 2, 2, 2]⟩
    ∧ (apsnse_estimate pathNodes pathEdges).func_to_cu ≠ [0, 1, 2, 3, 3] := by
  refine ⟨by decide, by decide, by decide⟩

/-! ## Claim C2: `_update_cu_map` preserves the contiguity invariant

The CUMap contiguity invariant — every compile-unit identifier occupies
exactly one contiguous run of `func_to_cu` — is formalised as
`ContiguousRuns`: between two equal entries every entry is equal. -/

def ContiguousRuns (l : List Int) : Prop :=
  ∀ k, k < l.length → ∀ j, j ≤ k → ∀ i, i ≤ j →
    l.getD i 0 = l.getD k 0 → l.getD j 0 = l.getD i 0

theorem getD_append_left {x y : List Int} {q : Nat} (h : q < x.length) :
    (x ++ y).getD q 0 = x.getD q 0 := by
  rw [List.getD_eq_getElem?_getD, List.getD_eq_getElem?_getD, List.getElem?_append,
    if_pos h]

theorem getD_append_right {x y : List Int} {q : Nat} (h : x.length ≤ q) :
    (x ++ y).getD q 0 = y.getD (q - x.length) 0 := by
  rw [List.getD_eq_getElem?_getD, List.getD_eq_getElem?_getD, List.getElem?_append,
    if_neg (by omega)]

theorem getD_replicate {v : Int} {n q : Nat} (h : q < n) :
    (List.replicate n v).getD q 0 = v := by
  rw [List.getD_eq_getElem _ _ (by simpa using h), List.getElem_replicate]

theorem mem_of_getD {l : List Int} {q : Nat} (h : q < l.length) :
    l.getD q 0 ∈ l := by
  rw [List.getD_eq_getElem _ _ h]
  exact List.getElem_mem _

theorem contiguousRuns_append_left {x y : List Int}
    (h : ContiguousRuns (x ++ y)) : ContiguousRuns x := by
  intro k hk j hj i hi heq
  have hk' : k < (x ++ y).length := by
    rw [List.length_append]
    omega
  have h1 := h k hk' j hj i hi
  have e1 : (x ++ y).getD i 0 = x.getD i 0 := getD_append_left (by omega)
  have e2 : (x ++ y).getD j 0 = x.getD j 0 := getD_append_left (by omega)
  have e3 : (x ++ y).getD k 0 = x.getD k 0 := getD_append_left hk
  rw [e1, e2, e3] at h1
  exact h1 heq

theorem contiguousRuns_append_right {x y : List Int}
    (h : ContiguousRuns (x ++ y)) : ContiguousRuns y := by
  intro k hk j hj i hi heq
  have h1 := h (x.length + k) (by rw [List.length_append]; omega)
    (x.length + j) (by omega) (x.length + i) (by omega)
  have e1 : (x ++ y).getD (x.length + i) 0 = y.getD i 0 := by
    rw [getD_append_right (by omega), Nat.add_sub_cancel_left]
  have e2 : (x ++ y).getD (x.length + j) 0 = y.getD j 0 := by
    rw [getD_append_right (by omega), Nat.add_sub_cancel_left]
  have e3 : (x ++ y).getD (x.length + k) 0 = y.getD k 0 := by
    rw [getD_append_right (by omega), Nat.add_sub_cancel_left]
  rw [e1, e2, e3] at h1
  exact h1 heq

theorem takeWhile_getD_true (p : Int → Bool) (d : List Int) :
    ∀ q, q < (d.takeWhile p).length → p (d.getD q 0) = true := by
  induction d with
  | nil => intro q hq; simp [List.takeWhile_nil] at hq
  | cons y ys ih =>
    intro q hq
    rw [List.takeWhile_cons] at hq
    by_cases hy : p y = true
    · rw [if_pos hy] at hq
      match q with
      | 0 => exact hy
      | q' + 1 =>
        rw [List.length_cons] at hq
        exact ih q' (by omega)
    · rw [if_neg hy] at hq
      simp at hq

theorem takeWhile_stop (p : Int → Bool) (d : List Int)
    (h : (d.takeWhile p).length < d.length) :
    p (d.getD (d.takeWhile p).length 0) = false := by
  induction d with
  | nil => simp at h
  | cons y ys ih =>
    rw [List.takeWhile_cons]
    by_cases hy : p y = true
    · rw [if_pos hy, List.length_cons]
      rw [List.takeWhile_cons, if_pos hy, List.length_cons, List.length_cons] at h
      exact ih (by omega)
    · rw [if_neg hy, List.length_nil]
      exact Bool.eq_false_iff.mpr hy

theorem getD_drop (l : List Int) (i q : Nat) :
    (l.drop i).getD q 0 = l.getD (i + q) 0 := by
  rw [List.getD_eq_getElem?_getD, List.getD_eq_getElem?_getD, List.getElem?_drop]

theorem runEnd_le {l : List Int} {i : Nat} (hi : i ≤ l.length) (cu : Int) :
    runEnd l i cu ≤ l.length := by
  rw [runEnd]
  have h1 : ((l.drop i).takeWhile (fun x => x == cu)).length ≤ (l.drop i).length :=
    List.Sublist.length_le (List.takeWhile_sublist _)
  rw [List.length_drop] at h1
  omega

theorem runEnd_mem {l : List Int} {i : Nat} {cu : Int} :
    ∀ q, i ≤ q → q < runEnd l i cu → l.getD q 0 = cu := by
  intro q hq1 hq2
  rw [runEnd] at hq2
  have h1 := takeWhile_getD_true (fun x => x == cu) (l.drop i) (q - i) (by omega)
  rw [getD_drop] at h1
  have h2 : i + (q - i) = q := by omega
  rw [h2] at h1
  simpa using h1

theorem runEnd_stop {l : List Int} {i : Nat} {cu : Int} (hi : i ≤ l.length)
    (h : runEnd l i cu < l.length) : l.getD (runEnd l i cu) 0 ≠ cu := by
  have hlen : ((l.drop i).takeWhile (fun x => x == cu)).length < (l.drop i).length := by
    rw [List.length_drop]
    rw [runEnd] at h
    omega
  have h1 := takeWhile_stop (fun x => x == cu) (l.drop i) hlen
  rw [getD_drop] at h1
  rw [runEnd]
  simpa using h1

theorem indexOf_run_start (l : List Int) (x : Int) :
    ∀ i, i < l.length → (∀ q, q < i → l.getD q 0 ≠ x) → l.getD i 0 = x →
      l.indexOf x = i := by
  induction l with
  | nil => intro i hi; simp at hi
  | cons y ys ih =>
    intro i hi hprev hcur
    match i with
    | 0 =>
      have hy : y = x := hcur
      rw [List.indexOf_cons]
      simp [hy]
    | q' + 1 =>
      have hy : y ≠ x := hprev 0 (by omega)
      rw [List.indexOf_cons]
      have hbeq : (y == x) = false := by simpa using hy
      rw [hbeq]
      have := ih q' (by simpa using hi)
        (fun q hq => hprev (q + 1) (by omega)) hcur
      simp [this]

theorem scanInvalidAux_oob {l : List Int} {i : Nat} (h : l.length ≤ i) :
    ∀ fuel, scanInvalidAux l fuel i = [] := by
  intro fuel
  match fuel with
  | 0 => rfl
  | f + 1 =>
    show (if i < l.length then _ else []) = []
    rw [if_neg (by omega)]

/-- On a map satisfying the contiguity invariant, the `get_invalid_cus`
scan reports nothing: at every run start the identifier's first occurrence
is the run start itself. -/
theorem scanInvalidAux_nil (l : List Int) (hC : ContiguousRuns l) :
    ∀ fuel i, l.length - i < fuel → (i = 0 ∨ l.getD (i - 1) 0 ≠ l.getD i 0) →
      scanInvalidAux l fuel i = [] := by
  intro fuel
  induction fuel with
  | zero => omega
  | succ f ih =>
    intro i hf hrs
    show (if i < l.length then _ else []) = []
    by_cases hi : i < l.length
    · rw [if_pos hi]
      have hprev : ∀ q, q < i → l.getD q 0 ≠ l.getD i 0 := by
        intro q hq hcon
        rcases hrs with rfl | hrs
        · omega
        · refine hrs ?_
          have := hC i hi (i - 1) (by omega) q (by omega) hcon
          rw [this, hcon]
      have hidx : l.indexOf (l.getD i 0) = i :=
        indexOf_run_start l (l.getD i 0) i hi hprev rfl
      rw [if_neg (by simpa using hidx)]
      by_cases hj : runEnd l i (l.getD i 0) < l.length
      · refine ih (runEnd l i (l.getD i 0)) ?_ (Or.inr ?_)
        · have := runEnd_gt hi
          omega
        · have hg := runEnd_gt hi
          have hm : l.getD (runEnd l i (l.getD i 0) - 1) 0 = l.getD i 0 :=
            @runEnd_mem l i (l.getD i 0) (runEnd l i (l.getD i 0) - 1)
              (by omega) (by omega)
          have hs := runEnd_stop (le_of_lt hi) hj
          rw [hm]
          exact fun hcon => hs hcon.symm
      · exact scanInvalidAux_oob (by omega) f
    · rw [if_neg hi]

theorem get_invalid_cus_nil {m : CUMap} (hC : ContiguousRuns m.func_to_cu) :
    get_invalid_cus m = [] := by
  rw [get_invalid_cus, scanInvalid]
  exact scanInvalidAux_nil m.func_to_cu hC _ 0 (by omega) (Or.inl rfl)

/-- With a strictly sorted address list, `set_cu_by_func_ea` at a present
address is a plain store at its index. -/
theorem set_cu_by_func_ea_present {m : CUMap} (hsorted : List.Pairwise (· < ·) m.funcs)
    {i : Nat} (hi : i < m.funcs.length) (v : Int) :
    set_cu_by_func_ea m (m.funcs.get ⟨i, hi⟩) v = ⟨m.funcs, m.func_to_cu.set i v⟩ := by
  have hb : bisect_left m.funcs (m.funcs.get ⟨i, hi⟩) = i :=
    bisect_left_of_sorted hsorted hi
  rw [set_cu_by_func_ea]
  simp only [hb]
  rw [if_pos ⟨by omega, by rw [List.getD_eq_getElem _ _ hi]; rfl⟩]
  rfl

/-- Folding `set_cu_by_func_ea` over a contiguous chunk of the (sorted)
address list replaces exactly the corresponding slice of `func_to_cu` with
the written identifier. -/
theorem fold_set_cu (v : Int) : ∀ (chunk A B : List Nat) (ftc : List Int),
    List.Pairwise (· < ·) (A ++ (chunk ++ B)) →
    A.length + chunk.length ≤ ftc.length →
    chunk.foldl (fun mm ea => set_cu_by_func_ea mm ea v)
        ⟨A ++ (chunk ++ B), ftc⟩
      = ⟨A ++ (chunk ++ B), ftc.take A.length
          ++ (List.replicate chunk.length v ++ ftc.drop (A.length + chunk.length))⟩ := by
  intro chunk
  induction chunk with
  | nil =>
    intro A B ftc _ _
    simp [List.take_append_drop]
  | cons c rest ih =>
    intro A B ftc hsorted hbound
    have hiA : A.length < (A ++ (c :: rest ++ B)).length := by
      simp only [List.length_append, List.length_cons]
      omega
    have hgetc : (A ++ (c :: rest ++ B)).get ⟨A.length, hiA⟩ = c := by
      rw [List.get_eq_getElem, List.getElem_append_right (le_refl A.length)]
      simp
    have hAlt : A.length < ftc.length := by
      simp only [List.length_cons] at hbound
      omega
    have hstep : set_cu_by_func_ea ⟨A ++ (c :: rest ++ B), ftc⟩ c v
        = ⟨A ++ (c :: rest ++ B), ftc.set A.length v⟩ := by
      have := set_cu_by_func_ea_present (m := ⟨A ++ (c :: rest ++ B), ftc⟩)
        hsorted hiA v
      rw [hgetc] at this
      exact this
    have hassoc : A ++ (c :: rest ++ B) = (A ++ [c]) ++ (rest ++ B) := by
      simp
    have hsorted' : List.Pairwise (· < ·) ((A ++ [c]) ++ (rest ++ B)) := by
      rw [← hassoc]
      exact hsorted
    have hbound' : (A ++ [c]).length + rest.length ≤ (ftc.set A.length v).length := by
      simp only [List.length_append, List.length_set, List.length_singleton]
      simp only [List.length_cons] at hbound
      omega
    have hfold := ih (A ++ [c]) B (ftc.set A.length v) hsorted' hbound'
    rw [List.foldl_cons, hstep, hassoc]
    rw [show (A ++ [c]) ++ (rest ++ B) = (A ++ [c]) ++ (rest ++ B) from rfl] at hfold
    rw [hfold]
    refine congrArg (CUMap.mk ((A ++ [c]) ++ (rest ++ B))) ?_
    have hlt : (ftc.take A.length).length = A.length := by
      rw [List.length_take]
      omega
    have hset : ftc.set A.length v
        = (ftc.take A.length ++ [v]) ++ ftc.drop (A.length + 1) := by
      rw [List.set_eq_take_cons_drop v hAlt]
      simp
    have htake : (ftc.set A.length v).take (A ++ [c]).length
        = ftc.take A.length ++ [v] := by
      rw [hset, List.take_append_eq_append_take]
      rw [List.take_of_length_le (by simp [hlt])]
      have hz : (A ++ [c]).length - (ftc.take A.length ++ [v]).length = 0 := by
        simp [hlt]
      rw [hz]
      simp
    have hdrop : (ftc.set A.length v).drop ((A ++ [c]).length + rest.length)
        = ftc.drop (A.length + (rest.length + 1)) := by
      rw [hset]
      rw [show (A ++ [c]).length + rest.length
          = (ftc.take A.length ++ [v]).length + rest.length from by
        simp [hlt]]
      rw [List.drop_append, List.drop_drop]
      exact congrArg (fun n => List.drop n ftc) (by omega)
    rw [htake, hdrop]
    simp only [List.length_append, List.length_singleton, List.length_cons,
      List.replicate_succ]
    rw [List.append_assoc]
    refine congrArg (ftc.take A.length ++ ·) ?_
    simp

/-- Deleting a contiguous middle slice preserves `ContiguousRuns`. -/
theorem contiguousRuns_remove_middle {X M Y : List Int}
    (h : ContiguousRuns (X ++ (M ++ Y))) : ContiguousRuns (X ++ Y) := by
  have hmap : ∀ t, t < (X ++ Y).length →
      (X ++ (M ++ Y)).getD (if t < X.length then t else t + M.length) 0
        = (X ++ Y).getD t 0 := by
    intro t ht
    by_cases hc : t < X.length
    · rw [if_pos hc, getD_append_left hc, getD_append_left hc]
    · rw [if_neg hc, getD_append_right (by omega), getD_append_right (by omega),
        getD_append_right (by omega)]
      have he : t + M.length - X.length - M.length = t - X.length := by omega
      rw [he]
  intro k hk j hj i hi heq
  have hkb : (if k < X.length then k else k + M.length) < (X ++ (M ++ Y)).length := by
    simp only [List.length_append] at hk ⊢
    by_cases hc : k < X.length <;> simp [hc] <;> omega
  have hij : (if i < X.length then i else i + M.length)
      ≤ (if j < X.length then j else j + M.length) := by
    by_cases h1 : i < X.length <;> by_cases h2 : j < X.length <;>
      simp [h1, h2] <;> omega
  have hjk : (if j < X.length then j else j + M.length)
      ≤ (if k < X.length then k else k + M.length) := by
    by_cases h1 : j < X.length <;> by_cases h2 : k < X.length <;>
      simp [h1, h2] <;> omega
  have h1 := h _ hkb _ hjk _ hij
  rw [hmap i (by omega), hmap j (by omega), hmap k hk] at h1
  exact h1 heq

/-- Inserting a run of a fresh identifier at a seam preserves
`ContiguousRuns`, provided the two sides share no identifier. -/
theorem contiguousRuns_insert {X Y : List Int} (v : Int) (n : Nat)
    (h : ContiguousRuns (X ++ Y)) (hvX : v ∉ X) (hvY : v ∉ Y)
    (hdisj : ∀ x ∈ X, x ∉ Y) :
    ContiguousRuns (X ++ (List.replicate n v ++ Y)) := by
  have hval : ∀ t, t < (X ++ (List.replicate n v ++ Y)).length →
      (X ++ (List.replicate n v ++ Y)).getD t 0
        = if t < X.length then X.getD t 0
          else if t < X.length + n then v else Y.getD (t - X.length - n) 0 := by
    intro t ht
    simp only [List.length_append, List.length_replicate] at ht
    by_cases h1 : t < X.length
    · rw [if_pos h1, getD_append_left h1]
    · rw [if_neg h1, getD_append_right (by omega)]
      by_cases h2 : t < X.length + n
      · rw [if_pos h2, getD_append_left (by simp; omega),
          getD_replicate (by omega)]
      · rw [if_neg h2, getD_append_right (by simp; omega), List.length_replicate]
  intro k hk j hj i hi heq
  have hlen : (X ++ (List.replicate n v ++ Y)).length
      = X.length + n + Y.length := by
    simp [Nat.add_assoc]
  rw [hval i (by omega), hval k hk] at heq
  rw [hval j (by omega), hval i (by omega)]
  rw [hlen] at hk
  by_cases hi1 : i < X.length
  · rw [if_pos hi1] at heq ⊢
    by_cases hk1 : k < X.length
    · rw [if_pos hk1] at heq
      have hjX : j < X.length := by omega
      rw [if_pos hjX]
      exact contiguousRuns_append_left h k hk1 j hj i hi heq
    · rw [if_neg hk1] at heq
      by_cases hk2 : k < X.length + n
      · rw [if_pos hk2] at heq
        exact absurd (heq ▸ mem_of_getD hi1) hvX
      · rw [if_neg hk2] at heq
        have hmem : Y.getD (k - X.length - n) 0 ∈ Y := mem_of_getD (by omega)
        exact absurd (heq ▸ hmem) (hdisj _ (mem_of_getD hi1))
  · rw [if_neg hi1] at heq ⊢
    by_cases hi2 : i < X.length + n
    · rw [if_pos hi2] at heq ⊢
      by_cases hk2 : k < X.length + n
      · rw [if_neg (by omega), if_pos (by omega)]
      · rw [if_neg hk2, if_neg (by omega)] at heq
        exact absurd (heq ▸ mem_of_getD (q := k - X.length - n) (by omega)) hvY
    · rw [if_neg hi2] at heq ⊢
      have hjge : ¬ j < X.length := by omega
      have hjge2 : ¬ j < X.length + n := by omega
      rw [if_neg hjge, if_neg hjge2]
      have hkk : ¬ k < X.length := by omega
      have hkk2 : ¬ k < X.length + n := by omega
      rw [if_neg hkk, if_neg hkk2] at heq
      exact contiguousRuns_append_right h (k - X.length - n) (by omega)
        (j - X.length - n) (by omega) (i - X.length - n) (by omega) heq

/-- Entry of a `func_to_cu` list made of a prefix, two runs and a suffix,
by region. -/
theorem getD_two_runs (P S : List Int) (a b : Int) (la lb : Nat) (t : Nat) :
    (P ++ (List.replicate la a ++ (List.replicate lb b ++ S))).getD t 0
      = if t < P.length then P.getD t 0
        else if t < P.length + la then a
        else if t < P.length + la + lb then b
        else S.getD (t - P.length - la - lb) 0 := by
  by_cases h1 : t < P.length
  · rw [if_pos h1, getD_append_left h1]
  · rw [if_neg h1, getD_append_right (by omega)]
    by_cases h2 : t < P.length + la
    · rw [if_pos h2, getD_append_left (by simp; omega), getD_replicate (by omega)]
    · rw [if_neg h2, getD_append_right (by simp; omega), List.length_replicate]
      by_cases h3 : t < P.length + la + lb
      · rw [if_pos h3, getD_append_left (by simp; omega), getD_replicate (by omega)]
      · rw [if_neg h3, getD_append_right (by simp; omega), List.length_replicate]

section TwoRuns

variable {P S : List Int} {a b : Int} {la lb : Nat}

/-- If the run of `a` is maximal on the left (the prefix does not end with
`a`), contiguity forbids `a` anywhere in the prefix. -/
theorem two_runs_a_notMem_P
    (hC : ContiguousRuns (P ++ (List.replicate la a ++ (List.replicate lb b ++ S))))
    (hla : 1 ≤ la) (hPlast : P.getLast? ≠ some a) : a ∉ P := by
  intro hmem
  obtain ⟨q, hq, hPq⟩ := List.mem_iff_getElem.mp hmem
  have hlen : (P ++ (List.replicate la a ++ (List.replicate lb b ++ S))).length
      = P.length + la + lb + S.length := by
    simp
    omega
  have hiq : (P ++ (List.replicate la a ++ (List.replicate lb b ++ S))).getD q 0
      = a := by
    rw [getD_two_runs, if_pos hq, List.getD_eq_getElem _ _ hq, hPq]
  have hkp : (P ++ (List.replicate la a ++ (List.replicate lb b ++ S))).getD
      P.length 0 = a := by
    rw [getD_two_runs, if_neg (by omega), if_pos (by omega)]
  have h1 := hC P.length (by omega) (P.length - 1) (by omega) q (by omega)
    (hiq.trans hkp.symm)
  rw [hiq, getD_two_runs, if_pos (by omega)] at h1
  refine hPlast ?_
  rw [List.getLast?_eq_getElem?, List.getElem?_eq_getElem (by omega)]
  rw [List.getD_eq_getElem _ _ (by omega)] at h1
  rw [h1]

/-- Contiguity forbids the right-hand identifier `b` in the prefix. -/
theorem two_runs_b_notMem_P
    (hC : ContiguousRuns (P ++ (List.replicate la a ++ (List.replicate lb b ++ S))))
    (hla : 1 ≤ la) (hlb : 1 ≤ lb) (hab : a ≠ b) : b ∉ P := by
  intro hmem
  obtain ⟨q, hq, hPq⟩ := List.mem_iff_getElem.mp hmem
  have hlen : (P ++ (List.replicate la a ++ (List.replicate lb b ++ S))).length
      = P.length + la + lb + S.length := by
    simp
    omega
  have hiq : (P ++ (List.replicate la a ++ (List.replicate lb b ++ S))).getD q 0
      = b := by
    rw [getD_two_runs, if_pos hq, List.getD_eq_getElem _ _ hq, hPq]
  have hkb : (P ++ (List.replicate la a ++ (List.replicate lb b ++ S))).getD
      (P.length + la) 0 = b := by
    rw [getD_two_runs, if_neg (by omega), if_neg (by omega), if_pos (by omega)]
  have h1 := hC (P.length + la) (by omega) P.length (by omega) q (by omega)
    (hiq.trans hkb.symm)
  rw [hiq, getD_two_runs, if_neg (by omega), if_pos (by omega)] at h1
  exact hab h1

/-- Contiguity forbids the left-hand identifier `a` in the suffix. -/
theorem two_runs_a_notMem_S
    (hC : ContiguousRuns (P ++ (List.replicate la a ++ (List.replicate lb b ++ S))))
    (hla : 1 ≤ la) (hlb : 1 ≤ lb) (hab : a ≠ b) : a ∉ S := by
  intro hmem
  obtain ⟨s, hs, hSs⟩ := List.mem_iff_getElem.mp hmem
  have hlen : (P ++ (List.replicate la a ++ (List.replicate lb b ++ S))).length
      = P.length + la + lb + S.length := by
    simp
    omega
  have hip : (P ++ (List.replicate la a ++ (List.replicate lb b ++ S))).getD
      P.length 0 = a := by
    rw [getD_two_runs, if_neg (by omega), if_pos (by omega)]
  have hks : (P ++ (List.replicate la a ++ (List.replicate lb b ++ S))).getD
      (P.length + la + lb + s) 0 = a := by
    rw [getD_two_runs, if_neg (by omega), if_neg (by omega), if_neg (by omega)]
    have he : P.length + la + lb + s - P.length - la - lb = s := by omega
    rw [he, List.getD_eq_getElem _ _ hs, hSs]
  have h1 := hC (P.length + la + lb + s) (by omega) (P.length + la) (by omega)
    P.length (by omega) (hip.trans hks.symm)
  rw [hip, getD_two_runs, if_neg (by omega), if_neg (by omega),
    if_pos (by omega)] at h1
  exact hab h1.symm

/-- If the run of `b` is maximal on the right (the suffix does not begin
with `b`), contiguity forbids `b` anywhere in the suffix. -/
theorem two_runs_b_notMem_S
    (hC : ContiguousRuns (P ++ (List.replicate la a ++ (List.replicate lb b ++ S))))
    (hlb : 1 ≤ lb) (hShead : S.head? ≠ some b) : b ∉ S := by
  intro hmem
  obtain ⟨s, hs, hSs⟩ := List.mem_iff_getElem.mp hmem
  have hlen : (P ++ (List.replicate la a ++ (List.replicate lb b ++ S))).length
      = P.length + la + lb + S.length := by
    simp
    omega
  have hib : (P ++ (List.replicate la a ++ (List.replicate lb b ++ S))).getD
      (P.length + la) 0 = b := by
    rw [getD_two_runs, if_neg (by omega), if_neg (by omega), if_pos (by omega)]
  have hks : (P ++ (List.replicate la a ++ (List.replicate lb b ++ S))).getD
      (P.length + la + lb + s) 0 = b := by
    rw [getD_two_runs, if_neg (by omega), if_neg (by omega), if_neg (by omega)]
    have he : P.length + la + lb + s - P.length - la - lb = s := by omega
    rw [he, List.getD_eq_getElem _ _ hs, hSs]
  have h1 := hC (P.length + la + lb + s) (by omega) (P.length + la + lb) (by omega)
    (P.length + la) (by omega) (hib.trans hks.symm)
  rw [hib, getD_two_runs, if_neg (by omega), if_neg (by omega),
    if_neg (by omega)] at h1
  have he : P.length + la + lb - P.length - la - lb = 0 := by omega
  rw [he] at h1
  refine hShead ?_
  rw [List.head?_eq_getElem?, List.getElem?_eq_getElem (by omega)]
  rw [List.getD_eq_getElem _ _ (by omega)] at h1
  rw [h1]

/-- Contiguity across the two runs keeps the prefix and suffix identifier
sets disjoint. -/
theorem two_runs_P_S_disjoint
    (hC : ContiguousRuns (P ++ (List.replicate la a ++ (List.replicate lb b ++ S))))
    (hla : 1 ≤ la) (hPlast : P.getLast? ≠ some a) :
    ∀ x ∈ P, x ∉ S := by
  intro x hxP hxS
  obtain ⟨q, hq, hPq⟩ := List.mem_iff_getElem.mp hxP
  obtain ⟨s, hs, hSs⟩ := List.mem_iff_getElem.mp hxS
  have hlen : (P ++ (List.replicate la a ++ (List.replicate lb b ++ S))).length
      = P.length + la + lb + S.length := by
    simp
    omega
  have hiq : (P ++ (List.replicate la a ++ (List.replicate lb b ++ S))).getD q 0
      = x := by
    rw [getD_two_runs, if_pos hq, List.getD_eq_getElem _ _ hq, hPq]
  have hks : (P ++ (List.replicate la a ++ (List.replicate lb b ++ S))).getD
      (P.length + la + lb + s) 0 = x := by
    rw [getD_two_runs, if_neg (by omega), if_neg (by omega), if_neg (by omega)]
    have he : P.length + la + lb + s - P.length - la - lb = s := by omega
    rw [he, List.getD_eq_getElem _ _ hs, hSs]
  have h1 := hC (P.length + la + lb + s) (by omega) P.length (by omega) q (by omega)
    (hiq.trans hks.symm)
  rw [hiq, getD_two_runs, if_neg (by omega), if_pos (by omega)] at h1
  exact two_runs_a_notMem_P hC hla hPlast (h1 ▸ hxP)

end TwoRuns

theorem drop_ge_append {A R : List Int} {n : Nat} (h : A.length ≤ n) :
    (A ++ R).drop n = R.drop (n - A.length) := by
  have h2 : n = A.length + (n - A.length) := by omega
  conv_lhs => rw [h2]
  rw [List.drop_append]

theorem foldl_max_le (xs : List Int) :
    ∀ acc : Int, acc ≤ xs.foldl max acc ∧ ∀ x ∈ xs, x ≤ xs.foldl max acc := by
  induction xs with
  | nil =>
    intro acc
    exact ⟨le_refl _, by simp⟩
  | cons y ys ih =>
    intro acc
    have h := ih (max acc y)
    refine ⟨le_trans (le_max_left acc y) h.1, ?_⟩
    intro x hx
    rcases List.mem_cons.mp hx with rfl | hx2
    · exact le_trans (le_max_right acc x) h.1
    · exact h.2 x hx2

/-- Every entry of a list is at most `listMax` of it. -/
theorem le_listMax {l : List Int} {x : Int} (h : x ∈ l) : x ≤ listMax l := by
  match l with
  | [] => simp at h
  | y :: ys =>
    rw [listMax]
    rcases List.mem_cons.mp h with rfl | h2
    · exact (foldl_max_le ys x).1
    · exact (foldl_max_le ys y).2 x h2

/-- The identifier allocated by `get_next_cu_id` is fresh: it does not
occur in `func_to_cu`. -/
theorem get_next_cu_id_notMem (m : CUMap) : get_next_cu_id m ∉ m.func_to_cu := by
  intro h
  have h1 := le_listMax h
  rw [get_next_cu_id] at h1
  omega

/-- Every compile-unit produced by `toCuAux` is non-empty. -/
theorem toCuAux_mem_ne_nil (b : Nat) (l : List Nat) :
    ∀ c ∈ toCuAux b l, c ≠ [] := by
  induction l with
  | nil => simp [toCuAux]
  | cons f rest ih =>
    intro c hc
    by_cases h : b.testBit rest.length
    · rw [show toCuAux b (f :: rest) = (f :: takeClear b rest) :: toCuAux b rest from by
        simp [toCuAux, h]] at hc
      rcases List.mem_cons.mp hc with rfl | hc2
      · simp
      · exact ih c hc2
    · rw [show toCuAux b (f :: rest) = toCuAux b rest from by simp [toCuAux, h]] at hc
      exact ih c hc

/-- C2: if `cu` and `next_cu` are adjacent maximal runs (identifiers `a`
and `b`) of a CUMap satisfying the contiguity invariant, and the state
covers exactly their concatenated function lists with its most significant
bit set and 1–3 set bits, then `_update_cu_map` succeeds and the resulting
map satisfies the invariant again: `get_invalid_cus` is empty. -/
theorem claim_C2 (m : CUMap) (P S : List Int) (FP MF FS : List Nat)
    (a b : Int) (la lb : Nat) (state : State)
    (hm : m.func_to_cu = P ++ (List.replicate la a ++ (List.replicate lb b ++ S)))
    (hf : m.funcs = FP ++ (MF ++ FS))
    (hlenP : FP.length = P.length)
    (hlenM : MF.length = la + lb)
    (hsorted : List.Pairwise (· < ·) m.funcs)
    (hC : ContiguousRuns m.func_to_cu)
    (hla : 1 ≤ la) (hlb : 1 ≤ lb) (hab : a ≠ b)
    (hPlast : P.getLast? ≠ some a) (hShead : S.head? ≠ some b)
    (hsf : state.funcs = MF)
    (hlt : state.bits < 2 ^ state.funcs.length)
    (hmsb : state.bits.testBit (state.funcs.length - 1) = true)
    (hbc1 : 1 ≤ bit_count state.bits) (hbc3 : bit_count state.bits ≤ 3) :
    ∃ m' n c, update_cu_map m a b state = some (m', n, c)
      ∧ get_invalid_cus m' = [] := by
  obtain ⟨mfuncs, mftc⟩ := m
  dsimp only at hm hf hsorted hC
  subst hm hf
  have hMne : MF ≠ [] := by
    intro h0
    rw [h0] at hlenM
    simp at hlenM
    omega
  have hne : state.funcs ≠ [] := by
    rw [hsf]
    exact hMne
  have hlen0 : state.to_cu_list.length = bit_count state.bits :=
    length_toCuAux_eq_bit_count hlt
  have hflat : state.to_cu_list.flatten = state.funcs := by
    obtain ⟨f, rest, hfr⟩ := List.exists_cons_of_ne_nil hne
    rw [State.to_cu_list, flatten_toCuAux, hfr]
    refine dropClear_of_head_set ?_
    rw [hfr] at hmsb
    simpa using hmsb
  have haP : a ∉ P := two_runs_a_notMem_P hC hla hPlast
  have hbP : b ∉ P := two_runs_b_notMem_P hC hla hlb hab
  have haS : a ∉ S := two_runs_a_notMem_S hC hla hlb hab
  have hbS : b ∉ S := two_runs_b_notMem_S hC hlb hShead
  have hdisj : ∀ x ∈ P, x ∉ S := two_runs_P_S_disjoint hC hla hPlast
  have hPS : ContiguousRuns (P ++ S) :=
    contiguousRuns_remove_middle (contiguousRuns_remove_middle hC)
  have hftclen : (P ++ (List.replicate la a ++ (List.replicate lb b ++ S))).length
      = P.length + (la + lb) + S.length := by
    simp only [List.length_append, List.length_replicate]
    omega
  have htakeP : (P ++ (List.replicate la a
      ++ (List.replicate lb b ++ S))).take P.length = P :=
    List.take_left' rfl
  have hdropS : (P ++ (List.replicate la a
      ++ (List.replicate lb b ++ S))).drop (P.length + (la + lb)) = S := by
    rw [drop_ge_append (by omega)]
    have h1 : P.length + (la + lb) - P.length = la + lb := by omega
    rw [h1, drop_ge_append (by simp)]
    rw [List.length_replicate]
    have h2 : la + lb - la = lb := by omega
    rw [h2, List.drop_left' (by simp)]
  have haL : a ∈ P ++ (List.replicate la a ++ (List.replicate lb b ++ S)) := by
    refine List.mem_append_right _ (List.mem_append_left _ ?_)
    exact List.mem_replicate.mpr ⟨by omega, rfl⟩
  have hbL : b ∈ P ++ (List.replicate la a ++ (List.replicate lb b ++ S)) := by
    refine List.mem_append_right _ (List.mem_append_right _
      (List.mem_append_left _ ?_))
    exact List.mem_replicate.mpr ⟨by omega, rfl⟩
  set L : List Int := P ++ (List.replicate la a ++ (List.replicate lb b ++ S))
    with hLdef
  have hcase : bit_count state.bits = 1 ∨ bit_count state.bits = 2
      ∨ bit_count state.bits = 3 := by omega
  rcases hcase with hk | hk | hk
  · -- one set bit: the two runs merge into one run of `a`
    obtain ⟨c0, hc0⟩ := List.length_eq_one.mp (hlen0.trans hk)
    have hc0MF : c0 = MF := by
      have h1 := hflat
      rw [hc0] at h1
      simp only [List.flatten_cons, List.flatten_nil, List.append_nil] at h1
      rw [hsf] at h1
      exact h1
    have heq : update_cu_map ⟨FP ++ (MF ++ FS), L⟩ a b state
        = some (c0.foldl (fun mm ea => set_cu_by_func_ea mm ea a)
            ⟨FP ++ (MF ++ FS), L⟩, c0.length, -1) := by
      rw [update_cu_map]
      simp only [hk, hc0]
      norm_num
    have hfold := fold_set_cu a MF FP FS L hsorted
      (by rw [hlenP, hlenM, hftclen]; omega)
    rw [hlenP, hlenM, htakeP, hdropS] at hfold
    rw [hc0MF, hfold] at heq
    have hC1 : ContiguousRuns (P ++ (List.replicate (la + lb) a ++ S)) :=
      contiguousRuns_insert a (la + lb) hPS haP haS hdisj
    exact ⟨_, _, _, heq, get_invalid_cus_nil hC1⟩
  · -- two set bits: the runs are rewritten in place
    obtain ⟨c0, c1, hc01⟩ := List.length_eq_two.mp (hlen0.trans hk)
    have hc01MF : c0 ++ c1 = MF := by
      have h1 := hflat
      rw [hc01] at h1
      simp only [List.flatten_cons, List.flatten_nil, List.append_nil] at h1
      rw [hsf] at h1
      exact h1
    have hk01 : c0.length + c1.length = la + lb := by
      have h2 := congrArg List.length hc01MF
      simpa [hlenM] using h2
    have hfshape : FP ++ (MF ++ FS) = FP ++ (c0 ++ (c1 ++ FS)) := by
      rw [← hc01MF, List.append_assoc]
    rw [hfshape] at hsorted ⊢
    have heq : update_cu_map ⟨FP ++ (c0 ++ (c1 ++ FS)), L⟩ a b state
        = some (c1.foldl (fun mm ea => set_cu_by_func_ea mm ea b)
              (c0.foldl (fun mm ea => set_cu_by_func_ea mm ea a)
                ⟨FP ++ (c0 ++ (c1 ++ FS)), L⟩),
            c0.length + c1.length, -1) := by
      rw [update_cu_map]
      simp only [hk, hc01]
      norm_num
    have hfold1 := fold_set_cu a c0 FP (c1 ++ FS) L hsorted
      (by rw [hlenP, hftclen]; omega)
    rw [hlenP, htakeP] at hfold1
    have hsorted2 : List.Pairwise (· < ·) ((FP ++ c0) ++ (c1 ++ FS)) := by
      rw [List.append_assoc]
      exact hsorted
    have hfold2 := fold_set_cu b c1 (FP ++ c0) FS
      (P ++ (List.replicate c0.length a ++ L.drop (P.length + c0.length)))
      hsorted2
      (by
        simp only [List.length_append, List.length_replicate, List.length_drop,
          hlenP, hftclen]
        omega)
    rw [List.append_assoc] at hfold2
    have hidx : (FP ++ c0).length = P.length + c0.length := by
      rw [List.length_append, hlenP]
    rw [hidx] at hfold2
    have htake2 : (P ++ (List.replicate c0.length a
        ++ L.drop (P.length + c0.length))).take (P.length + c0.length)
        = P ++ List.replicate c0.length a := by
      rw [show P ++ (List.replicate c0.length a ++ L.drop (P.length + c0.length))
          = (P ++ List.replicate c0.length a) ++ L.drop (P.length + c0.length) from
        (List.append_assoc _ _ _).symm]
      exact List.take_left' (by simp)
    have hdrop2 : (P ++ (List.replicate c0.length a
        ++ L.drop (P.length + c0.length))).drop (P.length + c0.length + c1.length)
        = S := by
      rw [show P ++ (List.replicate c0.length a ++ L.drop (P.length + c0.length))
          = (P ++ List.replicate c0.length a) ++ L.drop (P.length + c0.length) from
        (List.append_assoc _ _ _).symm]
      rw [drop_ge_append (by simp)]
      simp only [List.length_append, List.length_replicate]
      rw [List.drop_drop]
      have h3 : P.length + c0.length
          + (P.length + c0.length + c1.length - (P.length + c0.length))
          = P.length + (la + lb) := by omega
      rw [h3, hdropS]
    rw [htake2, hdrop2] at hfold2
    rw [hfold1, hfold2] at heq
    have hCb : ContiguousRuns (P ++ (List.replicate c1.length b ++ S)) :=
      contiguousRuns_insert b c1.length hPS hbP hbS hdisj
    have haY : a ∉ List.replicate c1.length b ++ S := by
      intro h
      rcases List.mem_append.mp h with h2 | h2
      · exact hab (List.mem_replicate.mp h2).2
      · exact haS h2
    have hdisjY : ∀ x ∈ P, x ∉ List.replicate c1.length b ++ S := by
      intro x hx h
      rcases List.mem_append.mp h with h2 | h2
      · exact hbP ((List.mem_replicate.mp h2).2 ▸ hx)
      · exact hdisj x hx h2
    have hC2 : ContiguousRuns ((P ++ List.replicate c0.length a)
        ++ (List.replicate c1.length b ++ S)) := by
      rw [List.append_assoc]
      exact contiguousRuns_insert a c0.length hCb haP haY hdisjY
    exact ⟨_, _, _, heq, get_invalid_cus_nil hC2⟩
  · -- three set bits: a fresh identifier is allocated for the middle run
    obtain ⟨c0, c1, c2, hc012⟩ := List.length_eq_three.mp (hlen0.trans hk)
    have hc012MF : c0 ++ (c1 ++ c2) = MF := by
      have h1 := hflat
      rw [hc012] at h1
      simp only [List.flatten_cons, List.flatten_nil, List.append_nil] at h1
      rw [hsf] at h1
      exact h1
    have hk012 : c0.length + c1.length + c2.length = la + lb := by
      have h2 := congrArg List.length hc012MF
      simp only [List.length_append, hlenM] at h2
      omega
    have hfshape : FP ++ (MF ++ FS) = FP ++ (c0 ++ (c1 ++ (c2 ++ FS))) := by
      rw [← hc012MF]
      simp only [List.append_assoc]
    rw [hfshape] at hsorted ⊢
    have heq : update_cu_map ⟨FP ++ (c0 ++ (c1 ++ (c2 ++ FS))), L⟩ a b state
        = some (c2.foldl (fun mm ea => set_cu_by_func_ea mm ea b)
              (c1.foldl (fun mm ea => set_cu_by_func_ea mm ea
                  (get_next_cu_id ⟨FP ++ (c0 ++ (c1 ++ (c2 ++ FS))), L⟩))
                (c0.foldl (fun mm ea => set_cu_by_func_ea mm ea a)
                  ⟨FP ++ (c0 ++ (c1 ++ (c2 ++ FS))), L⟩)),
            c0.length + c1.length + c2.length,
            get_next_cu_id ⟨FP ++ (c0 ++ (c1 ++ (c2 ++ FS))), L⟩) := by
      rw [update_cu_map]
      simp only [hk, hc012]
      norm_num
    have hwL : get_next_cu_id ⟨FP ++ (c0 ++ (c1 ++ (c2 ++ FS))), L⟩ ∉ L :=
      get_next_cu_id_notMem _
    have hfold1 := fold_set_cu a c0 FP (c1 ++ (c2 ++ FS)) L hsorted
      (by rw [hlenP, hftclen]; omega)
    rw [hlenP, htakeP] at hfold1
    have hsorted2 : List.Pairwise (· < ·) ((FP ++ c0) ++ (c1 ++ (c2 ++ FS))) := by
      rw [List.append_assoc]
      exact hsorted
    have hfold2 := fold_set_cu (get_next_cu_id ⟨FP ++ (c0 ++ (c1 ++ (c2 ++ FS))), L⟩)
      c1 (FP ++ c0) (c2 ++ FS)
      (P ++ (List.replicate c0.length a ++ L.drop (P.length + c0.length)))
      hsorted2
      (by
        simp only [List.length_append, List.length_replicate, List.length_drop,
          hlenP, hftclen]
        omega)
    rw [List.append_assoc] at hfold2
    have hidx : (FP ++ c0).length = P.length + c0.length := by
      rw [List.length_append, hlenP]
    rw [hidx] at hfold2
    have htake2 : (P ++ (List.replicate c0.length a
        ++ L.drop (P.length + c0.length))).take (P.length + c0.length)
        = P ++ List.replicate c0.length a := by
      rw [show P ++ (List.replicate c0.length a ++ L.drop (P.length + c0.length))
          = (P ++ List.replicate c0.length a) ++ L.drop (P.length + c0.length) from
        (List.append_assoc _ _ _).symm]
      exact List.take_left' (by simp)
    have hdrop2 : (P ++ (List.replicate c0.length a
        ++ L.drop (P.length + c0.length))).drop (P.length + c0.length + c1.length)
        = L.drop (P.length + c0.length + c1.length) := by
      rw [show P ++ (List.replicate c0.length a ++ L.drop (P.length + c0.length))
          = (P ++ List.replicate c0.length a) ++ L.drop (P.length + c0.length) from
        (List.append_assoc _ _ _).symm]
      rw [drop_ge_append (by simp)]
      simp only [List.length_append, List.length_replicate]
      rw [List.drop_drop]
      have h3 : P.length + c0.length
          + (P.length + c0.length + c1.length - (P.length + c0.length))
          = P.length + c0.length + c1.length := by omega
      rw [h3]
    rw [htake2, hdrop2] at hfold2
    have hsorted3 : List.Pairwise (· < ·) (((FP ++ c0) ++ c1) ++ (c2 ++ FS)) := by
      simp only [List.append_assoc]
      exact hsorted
    have hfold3 := fold_set_cu b c2 ((FP ++ c0) ++ c1) FS
      ((P ++ List.replicate c0.length a)
        ++ (List.replicate c1.length (get_next_cu_id
            ⟨FP ++ (c0 ++ (c1 ++ (c2 ++ FS))), L⟩)
          ++ L.drop (P.length + c0.length + c1.length)))
      hsorted3
      (by
        simp only [List.length_append, List.length_replicate, List.length_drop,
          hlenP, hftclen]
        omega)
    have hfshape3 : ((FP ++ c0) ++ c1) ++ (c2 ++ FS)
        = FP ++ (c0 ++ (c1 ++ (c2 ++ FS))) := by
      simp only [List.append_assoc]
    rw [hfshape3] at hfold3
    have hidx3 : ((FP ++ c0) ++ c1).length = P.length + c0.length + c1.length := by
      simp only [List.length_append, hlenP]
    rw [hidx3] at hfold3
    have htake3 : ((P ++ List.replicate c0.length a)
        ++ (List.replicate c1.length (get_next_cu_id
            ⟨FP ++ (c0 ++ (c1 ++ (c2 ++ FS))), L⟩)
          ++ L.drop (P.length + c0.length + c1.length))).take
            (P.length + c0.length + c1.length)
        = (P ++ List.replicate c0.length a)
          ++ List.replicate c1.length (get_next_cu_id
            ⟨FP ++ (c0 ++ (c1 ++ (c2 ++ FS))), L⟩) := by
      rw [show (P ++ List.replicate c0.length a)
          ++ (List.replicate c1.length (get_next_cu_id
              ⟨FP ++ (c0 ++ (c1 ++ (c2 ++ FS))), L⟩)
            ++ L.drop (P.length + c0.length + c1.length))
          = ((P ++ List.replicate c0.length a)
            ++ List.replicate c1.length (get_next_cu_id
              ⟨FP ++ (c0 ++ (c1 ++ (c2 ++ FS))), L⟩))
            ++ L.drop (P.length + c0.length + c1.length) from
        (List.append_assoc _ _ _).symm]
      exact List.take_left' (by simp only [List.length_append, List.length_replicate])
    have hdrop3 : ((P ++ List.replicate c0.length a)
        ++ (List.replicate c1.length (get_next_cu_id
            ⟨FP ++ (c0 ++ (c1 ++ (c2 ++ FS))), L⟩)
          ++ L.drop (P.length + c0.length + c1.length))).drop
            (P.length + c0.length + c1.length + c2.length)
        = S := by
      rw [show (P ++ List.replicate c0.length a)
          ++ (List.replicate c1.length (get_next_cu_id
              ⟨FP ++ (c0 ++ (c1 ++ (c2 ++ FS))), L⟩)
            ++ L.drop (P.length + c0.length + c1.length))
          = ((P ++ List.replicate c0.length a)
            ++ List.replicate c1.length (get_next_cu_id
              ⟨FP ++ (c0 ++ (c1 ++ (c2 ++ FS))), L⟩))
            ++ L.drop (P.length + c0.length + c1.length) from
        (List.append_assoc _ _ _).symm]
      rw [drop_ge_append (by simp only [List.length_append, List.length_replicate]; omega)]
      simp only [List.length_append, List.length_replicate]
      rw [List.drop_drop]
      have h3 : P.length + c0.length + c1.length
          + (P.length + c0.length + c1.length + c2.length
            - (P.length + c0.length + c1.length))
          = P.length + (la + lb) := by omega
      rw [h3, hdropS]
    rw [htake3, hdrop3] at hfold3
    rw [hfold1, hfold2, hfold3] at heq
    have hwa : a ≠ get_next_cu_id ⟨FP ++ (c0 ++ (c1 ++ (c2 ++ FS))), L⟩ := by
      intro h
      exact hwL (h ▸ haL)
    have hwb : b ≠ get_next_cu_id ⟨FP ++ (c0 ++ (c1 ++ (c2 ++ FS))), L⟩ := by
      intro h
      exact hwL (h ▸ hbL)
    have hwP : get_next_cu_id ⟨FP ++ (c0 ++ (c1 ++ (c2 ++ FS))), L⟩ ∉ P := by
      intro h
      exact hwL (List.mem_append_left _ h)
    have hwS : get_next_cu_id ⟨FP ++ (c0 ++ (c1 ++ (c2 ++ FS))), L⟩ ∉ S := by
      intro h
      refine hwL (List.mem_append_right _ (List.mem_append_right _
        (List.mem_append_right _ h)))
    have hPnotw : ∀ x ∈ P, x ≠ get_next_cu_id ⟨FP ++ (c0 ++ (c1 ++ (c2 ++ FS))), L⟩ := by
      intro x hx h
      exact hwL (h ▸ List.mem_append_left _ hx)
    have hCb : ContiguousRuns (P ++ (List.replicate c2.length b ++ S)) :=
      contiguousRuns_insert b c2.length hPS hbP hbS hdisj
    have hwY : get_next_cu_id ⟨FP ++ (c0 ++ (c1 ++ (c2 ++ FS))), L⟩
        ∉ List.replicate c2.length b ++ S := by
      intro h
      rcases List.mem_append.mp h with h2 | h2
      · exact hwb ((List.mem_replicate.mp h2).2).symm
      · exact hwS h2
    have hdisjY2 : ∀ x ∈ P, x ∉ List.replicate c2.length b ++ S := by
      intro x hx h
      rcases List.mem_append.mp h with h2 | h2
      · exact hbP ((List.mem_replicate.mp h2).2 ▸ hx)
      · exact hdisj x hx h2
    have hCw : ContiguousRuns (P ++ (List.replicate c1.length (get_next_cu_id
        ⟨FP ++ (c0 ++ (c1 ++ (c2 ++ FS))), L⟩)
          ++ (List.replicate c2.length b ++ S))) :=
      contiguousRuns_insert _ c1.length hCb hwP hwY hdisjY2
    have haY3 : a ∉ List.replicate c1.length (get_next_cu_id
        ⟨FP ++ (c0 ++ (c1 ++ (c2 ++ FS))), L⟩)
          ++ (List.replicate c2.length b ++ S) := by
      intro h
      rcases List.mem_append.mp h with h2 | h2
      · exact hwa (List.mem_replicate.mp h2).2
      · rcases List.mem_append.mp h2 with h3 | h3
        · exact hab (List.mem_replicate.mp h3).2
        · exact haS h3
    have hdisjY3 : ∀ x ∈ P, x ∉ List.replicate c1.length (get_next_cu_id
        ⟨FP ++ (c0 ++ (c1 ++ (c2 ++ FS))), L⟩)
          ++ (List.replicate c2.length b ++ S) := by
      intro x hx h
      rcases List.mem_append.mp h with h2 | h2
      · exact hPnotw x hx (List.mem_replicate.mp h2).2
      · rcases List.mem_append.mp h2 with h3 | h3
        · exact hbP ((List.mem_replicate.mp h3).2 ▸ hx)
        · exact hdisj x hx h3
    have hC3 : ContiguousRuns (((P ++ List.replicate c0.length a)
        ++ List.replicate c1.length (get_next_cu_id
          ⟨FP ++ (c0 ++ (c1 ++ (c2 ++ FS))), L⟩))
        ++ (List.replicate c2.length b ++ S)) := by
      simp only [List.append_assoc]
      exact contiguousRuns_insert a c0.length hCw haP haY3 hdisjY3
    exact ⟨_, _, _, heq, get_invalid_cus_nil hC3⟩

/-- Witness for C2: merging the two single-function runs `0` and `1` of the
map `funcs = [10, 20]`, `func_to_cu = [0, 1]` via the one-bit state `0b10`
succeeds and leaves no invalid compile-units. -/
theorem claim_C2_witness :
    ∃ m' n c, update_cu_map ⟨[10, 20], [0, 1]⟩ 0 1 ⟨2, [10, 20]⟩ = some (m', n, c)
      ∧ get_invalid_cus m' = [] :=
  claim_C2 ⟨[10, 20], [0, 1]⟩ [] [] [] [10, 20] [] 0 1 1 1 ⟨2, [10, 20]⟩
    rfl rfl rfl rfl (by decide) (by unfold ContiguousRuns; decide) (by decide)
    (by decide) (by decide) (by decide) (by decide) rfl (by decide) (by decide)
    (by decide) (by decide)
